import Mathlib

/-! # rufus-stone/utils: radix codecs and AES cipher modes

A shallow embedding of the codec layer (`base64`, `hex`, `hmr::binary`), of the
text helpers of `format.cpp` and of the cipher-mode engine of `crypto.hpp`,
followed by theorems about them.

Conventions of the embedding.

* A `std::string` / `std::string_view` is a `List Byte`, a byte being a
  `Fin 256`.  A character literal of the source is its ASCII code
  (`chr 'A' = 65`).
* Unsigned machine integers are natural numbers; a narrowing cast
  `static_cast<uint8_t>(n)` is `n % 256`, a `uint32_t` result is taken
  `% 2 ^ 32`.
* `LOG_ERROR(..); return std::string{};` is a failure of the traced function
  (`decode_traced`); the function the caller sees (`decode`) hands back the
  empty string in that case, exactly as the source does.
* A C++ exception and a failed `assert` are the `error` case of `Except`.
-/

set_option maxRecDepth 100000

/-! ## Bytes and strings -/

/-- One `char` of a `std::string`, as an unsigned 8-bit value. -/
abbrev Byte := Fin 256

/-- The narrowing conversion to `uint8_t` / `char`: the value modulo 256. -/
def toByte (n : Nat) : Byte := ⟨n % 256, Nat.mod_lt n (by decide)⟩

/-- A character literal of the source, as its byte. -/
def chr (c : Char) : Byte := toByte c.toNat

/-- A string literal of the source, as its bytes. -/
def str (s : String) : List Byte := s.toList.map chr

deriving instance DecidableEq for Except

/-- The call `s.find_first_not_of(chars)`: index of the first character of `s`
that is not one of `chars`, `none` standing for `std::string::npos`. -/
def find_first_not_of (s chars : List Byte) : Option Nat :=
  match s with
  | [] => none
  | c :: rest =>
    if c ∈ chars then (find_first_not_of rest chars).map (fun i => i + 1) else some 0

/-- The erase-remove idiom `tmp.erase(std::remove(begin, end, ' '), end)`. -/
def strip_spaces (s : List Byte) : List Byte := s.filter (fun c => c ≠ chr ' ')

/-! ## base64.hpp -/

namespace base64

/-- The constant `base64_alphabet`. -/
def base64_alphabet : List Byte :=
  str "ABCDEFGHIJKLMNOPQRSTUVWXYZabcdefghijklmnopqrstuvwxyz0123456789+/"

/-- The lookup `base64_alphabet[i]` (every index the code uses is below 64). -/
def alphabet_at (i : Nat) : Byte := base64_alphabet.getD i 0

/-- The `for (i = 0; i < len; i += 3)` loop of `encode`: each pass reads up to
three bytes through `data`, packs them into the 24-bit number `n` and appends
two, three or four alphabet characters. -/
def encode_loop : List Byte → List Byte
  | [] => []
  | [x] =>
    let n := (x.val <<< 16) % 2 ^ 32
    let a := ((n >>> 18) &&& 63) % 256
    let b := ((n >>> 12) &&& 63) % 256
    [alphabet_at a, alphabet_at b]
  | [x, y] =>
    let n := ((x.val <<< 16) + (y.val <<< 8)) % 2 ^ 32
    let a := ((n >>> 18) &&& 63) % 256
    let b := ((n >>> 12) &&& 63) % 256
    let c := ((n >>> 6) &&& 63) % 256
    [alphabet_at a, alphabet_at b, alphabet_at c]
  | x :: y :: z :: rest =>
    let n := ((x.val <<< 16) + (y.val <<< 8) + z.val) % 2 ^ 32
    let a := ((n >>> 18) &&& 63) % 256
    let b := ((n >>> 12) &&& 63) % 256
    let c := ((n >>> 6) &&& 63) % 256
    let d := (n &&& 63) % 256
    alphabet_at a :: alphabet_at b :: alphabet_at c :: alphabet_at d :: encode_loop rest

/-- The function `base64::encode`: the loop, then the `switch (len % 3)` that
appends two `=` for one trailing byte and one `=` for two. -/
def encode (input : List Byte) : List Byte :=
  let len := input.length
  let output := encode_loop input
  match len % 3 with
  | 1 => output ++ List.replicate 2 (chr '=')
  | 2 => output ++ List.replicate 1 (chr '=')
  | _ => output

/-- The four `LOG_ERROR` exits of `base64::decode`. -/
inductive Failure where
  | too_short
  | invalid_char (index : Nat)
  | one_byte_left
  | not_enough_data
  deriving DecidableEq, Repr

/-- The lambda `b64_to_uint8_t`: alphabet index of a base64 character, `0xFF`
for any other byte. -/
def b64_to_uint8_t (n : Byte) : Nat :=
  if 0x41 ≤ n.val ∧ n.val ≤ 0x5a then (n.val - 0x41) % 256
  else if 0x61 ≤ n.val ∧ n.val ≤ 0x7a then (n.val - 0x61 + 26) % 256
  else if 0x30 ≤ n.val ∧ n.val ≤ 0x39 then (n.val - 0x30 + 52) % 256
  else if n.val = 0x2b then 0x3e
  else if n.val = 0x2f then 0x3f
  else 0xFF

/-- The `while (iter < end)` loop of `decode`, on the characters between
`iter` and `end`; `output` is the string built so far.  One character left is
the "only one byte left" error; otherwise `remaining` is 4, 3 or 2 and the
matching `case` appends 3, 2 or 1 bytes. -/
def decode_loop : List Byte → List Byte → Except Failure (List Byte)
  | [], output => .ok output
  | [_], _ => .error Failure.one_byte_left
  | [ca, cb], output =>
    let a := b64_to_uint8_t ca
    let b := b64_to_uint8_t cb
    let n := ((a <<< 18) ||| (b <<< 12)) % 2 ^ 32
    let d1 := toByte (n >>> 16)
    .ok (output ++ [d1])
  | [ca, cb, cc], output =>
    let a := b64_to_uint8_t ca
    let b := b64_to_uint8_t cb
    let c := b64_to_uint8_t cc
    let n := ((a <<< 18) ||| (b <<< 12) ||| (c <<< 6)) % 2 ^ 32
    let d1 := toByte (n >>> 16)
    let d2 := toByte ((n >>> 8) &&& 0xFF)
    .ok (output ++ [d1, d2])
  | ca :: cb :: cc :: cd :: rest, output =>
    let a := b64_to_uint8_t ca
    let b := b64_to_uint8_t cb
    let c := b64_to_uint8_t cc
    let d := b64_to_uint8_t cd
    let n := ((a <<< 18) ||| (b <<< 12) ||| (c <<< 6) ||| d) % 2 ^ 32
    let d1 := toByte (n >>> 16)
    let d2 := toByte ((n >>> 8) &&& 0xFF)
    let d3 := toByte (n &&& 0xFF)
    decode_loop rest (output ++ [d1, d2, d3])

/-- The control flow of `base64::decode`: which `return` is taken.  `end` is
`std::find(begin, end, '=')`, so the loop sees the characters before the
first `=`. -/
def decode_traced (input : List Byte) : Except Failure (List Byte) :=
  let len := input.length
  if len < 2 then .error Failure.too_short
  else
    match find_first_not_of input (base64_alphabet ++ str "=") with
    | some e => .error (Failure.invalid_char e)
    | none =>
      let upto_end := input.takeWhile (fun c => c ≠ chr '=')
      decode_loop upto_end []

/-- The function `base64::decode` as its caller sees it: the decoded string,
or the empty string after any of the logged errors. -/
def decode (input : List Byte) : List Byte :=
  match decode_traced input with
  | .ok output => output
  | .error _ => []

end base64

/-! ## format.cpp (the helper `hex::decode` calls) -/

namespace hmr.format

/-- The call `std::toupper(ch)` on an `unsigned char` in the default "C"
locale: the letters `a`..`z` go to `A`..`Z`, every other byte is unchanged. -/
def toupper (ch : Byte) : Byte :=
  if 0x61 ≤ ch.val ∧ ch.val ≤ 0x7a then toByte (ch.val - 0x20) else ch

/-- The function `to_upper`: `std::transform` of the input with `toupper`. -/
def to_upper (input : List Byte) : List Byte := input.map toupper

end hmr.format

/-! ## hex.hpp -/

namespace hex

/-- The constant `hex_alphabet`. -/
def hex_alphabet : List Byte := str "0123456789ABCDEF"

/-- The lookup `hex_alphabet[i]` (every index the code uses is below 16). -/
def alphabet_at (i : Nat) : Byte := hex_alphabet.getD i 0

/-- The value `std::string::npos`, the largest `size_t`. -/
def npos : Nat := 2 ^ 64 - 1

/-- The call `hex_alphabet.find(c)`: index of the first occurrence of `c`, or
`npos`. -/
def alphabet_find (c : Byte) : Nat :=
  if c ∈ hex_alphabet then hex_alphabet.indexOf c else npos

/-- The call `output.pop_back()`.  Its precondition is a non-empty string; on
an empty one the behaviour is undefined, which is `none` here. -/
def pop_back (output : List Byte) : Option (List Byte) :=
  match output with
  | [] => none
  | _ :: _ => some output.dropLast

/-- The range-for of `encode(const std::string &, bool)`: two alphabet
characters per input byte, high nibble first, then a space when delimited.
For a `char` the masked values `ch & 0xF0` and `ch & 0x0F` are the same
whether `char` is signed or not. -/
def encode_loop (delimited : Bool) : List Byte → List Byte
  | [] => []
  | ch :: rest =>
    [alphabet_at ((ch.val &&& 0xF0) >>> 4), alphabet_at (ch.val &&& 0x0F)]
      ++ (if delimited then [chr ' '] else []) ++ encode_loop delimited rest

/-- The function `hex::encode(const std::string &input, bool delimited)`: the
loop, then `pop_back()` of the trailing space when delimited.  `none` is
undefined behaviour (the `pop_back()` of an empty `output`). -/
def encode (input : List Byte) (delimited : Bool) : Option (List Byte) :=
  let output := encode_loop delimited input
  if delimited then pop_back output else some output

/-- The two `LOG_ERROR` exits of `hex::decode`. -/
inductive Failure where
  | odd_length
  | invalid_char (index : Nat)
  deriving DecidableEq, Repr

/-- The `for (i = 0; i < len; i += 2)` loop of `decode`: one byte
`(a << 4) | b` per two characters, `a` and `b` their alphabet positions.  The
checks before the loop make `len` even; for an odd `len` the last pass would
read `tmp[len]`, the terminating `'\0'`. -/
def decode_loop : List Byte → List Byte
  | [] => []
  | [c1] =>
    let a := alphabet_find c1
    let b := alphabet_find 0
    [toByte (((a <<< 4) % 2 ^ 64) ||| b)]
  | c1 :: c2 :: rest =>
    let a := alphabet_find c1
    let b := alphabet_find c2
    toByte (((a <<< 4) % 2 ^ 64) ||| b) :: decode_loop rest

/-- The control flow of `hex::decode`: upper-case, strip spaces, the two fail
points, then the loop. -/
def decode_traced (input : List Byte) : Except Failure (List Byte) :=
  let tmp := strip_spaces (hmr.format.to_upper input)
  let len := tmp.length
  if len &&& 1 ≠ 0 then .error Failure.odd_length
  else
    match find_first_not_of tmp hex_alphabet with
    | some e => .error (Failure.invalid_char e)
    | none => .ok (decode_loop tmp)

/-- The function `hex::decode` as its caller sees it: the decoded string, or
the empty string after either logged error. -/
def decode (input : List Byte) : List Byte :=
  match decode_traced input with
  | .ok output => output
  | .error _ => []

/-- The function template `hex::encode<T>(T input, bool delimited)` (the
source overloads the name `encode`) for an unsigned `T` of `s = sizeof(T)`
bytes holding `input`: one `push_back` per nibble, from the top one down, with
`if (delimited) { output.push_back(' '); }` between the bytes; any other size
takes the `default:` exit. -/
def encode_integral (s : Nat) (input : Nat) (delimited : Bool) : List Byte :=
  let space : List Byte := if delimited then [chr ' '] else []
  match s with
  | 1 =>
    [alphabet_at ((input &&& 0xF0) >>> 4), alphabet_at (input &&& 0x0F)]
  | 2 =>
    [alphabet_at ((input &&& 0xF000) >>> 12), alphabet_at ((input &&& 0x0F00) >>> 8)]
      ++ space
      ++ [alphabet_at ((input &&& 0x00F0) >>> 4), alphabet_at (input &&& 0x000F)]
  | 4 =>
    [alphabet_at ((input &&& 0xF0000000) >>> 28), alphabet_at ((input &&& 0x0F000000) >>> 24)]
      ++ space
      ++ [alphabet_at ((input &&& 0x00F00000) >>> 20), alphabet_at ((input &&& 0x000F0000) >>> 16)]
      ++ space
      ++ [alphabet_at ((input &&& 0x0000F000) >>> 12), alphabet_at ((input &&& 0x00000F00) >>> 8)]
      ++ space
      ++ [alphabet_at ((input &&& 0x000000F0) >>> 4), alphabet_at (input &&& 0x0000000F)]
  | 8 =>
    [alphabet_at ((input &&& 0xF000000000000000) >>> 60),
        alphabet_at ((input &&& 0x0F00000000000000) >>> 56)]
      ++ space
      ++ [alphabet_at ((input &&& 0x00F0000000000000) >>> 52),
        alphabet_at ((input &&& 0x000F000000000000) >>> 48)]
      ++ space
      ++ [alphabet_at ((input &&& 0x0000F00000000000) >>> 44),
        alphabet_at ((input &&& 0x00000F0000000000) >>> 40)]
      ++ space
      ++ [alphabet_at ((input &&& 0x000000F000000000) >>> 36),
        alphabet_at ((input &&& 0x0000000F00000000) >>> 32)]
      ++ space
      ++ [alphabet_at ((input &&& 0x00000000F0000000) >>> 28),
        alphabet_at ((input &&& 0x000000000F000000) >>> 24)]
      ++ space
      ++ [alphabet_at ((input &&& 0x0000000000F00000) >>> 20),
        alphabet_at ((input &&& 0x00000000000F0000) >>> 16)]
      ++ space
      ++ [alphabet_at ((input &&& 0x000000000000F000) >>> 12),
        alphabet_at ((input &&& 0x0000000000000F00) >>> 8)]
      ++ space
      ++ [alphabet_at ((input &&& 0x00000000000000F0) >>> 4),
        alphabet_at (input &&& 0x000000000000000F)]
  | _ => []

end hex

/-! ## binary.hpp -/

namespace hmr.binary

/-- The call `std::bitset<N>(v).to_string()`: the low `N` bits of `v` as
`'0'`/`'1'` characters, most significant first. -/
def bitset_to_string : Nat → Nat → List Byte
  | 0, _ => []
  | N + 1, v => bitset_to_string N (v / 2) ++ [if v % 2 = 1 then chr '1' else chr '0']

/-- The call `std::bitset<N>(str).to_ullong()` (for `N ≤ 64`): at most the
first `N` characters are read, the last one read being bit 0. -/
def bitset_of_string (N : Nat) (s : List Byte) : Nat :=
  (s.take N).foldl (fun acc c => 2 * acc + (if c = chr '1' then 1 else 0)) 0

/-- The function `encode<T>(T input, bool delimited)` for an unsigned `T` of
`s = sizeof(T)` bytes holding `input`: one `std::bitset<8>` per byte joined
by spaces when delimited, one `std::bitset<8 * s>` otherwise. -/
def encode (s : Nat) (input : Nat) (delimited : Bool) : List Byte :=
  if delimited then
    match s with
    | 1 => bitset_to_string 8 input
    | 2 =>
      let a := toByte ((input &&& 0xFF00) >>> 8)
      let b := toByte (input &&& 0x00FF)
      bitset_to_string 8 a.val ++ [chr ' '] ++ bitset_to_string 8 b.val
    | 4 =>
      let a := toByte ((input &&& 0xFF000000) >>> 24)
      let b := toByte ((input &&& 0x00FF0000) >>> 16)
      let c := toByte ((input &&& 0x0000FF00) >>> 8)
      let d := toByte (input &&& 0x000000FF)
      bitset_to_string 8 a.val ++ [chr ' '] ++ bitset_to_string 8 b.val ++ [chr ' ']
        ++ bitset_to_string 8 c.val ++ [chr ' '] ++ bitset_to_string 8 d.val
    | 8 =>
      let a := toByte ((input &&& 0xFF00000000000000) >>> 56)
      let b := toByte ((input &&& 0x00FF000000000000) >>> 48)
      let c := toByte ((input &&& 0x0000FF0000000000) >>> 40)
      let d := toByte ((input &&& 0x000000FF00000000) >>> 32)
      let e := toByte ((input &&& 0x00000000FF000000) >>> 24)
      let f := toByte ((input &&& 0x0000000000FF0000) >>> 16)
      let g := toByte ((input &&& 0x000000000000FF00) >>> 8)
      let h := toByte (input &&& 0x00000000000000FF)
      bitset_to_string 8 a.val ++ [chr ' '] ++ bitset_to_string 8 b.val ++ [chr ' ']
        ++ bitset_to_string 8 c.val ++ [chr ' '] ++ bitset_to_string 8 d.val ++ [chr ' ']
        ++ bitset_to_string 8 e.val ++ [chr ' '] ++ bitset_to_string 8 f.val ++ [chr ' ']
        ++ bitset_to_string 8 g.val ++ [chr ' '] ++ bitset_to_string 8 h.val
    | _ => []
  else
    bitset_to_string (s * 8) input

/-- The exception `hmr::xcpt::binary::invalid_input`, by the `throw` that
raised it. -/
inductive invalid_input where
  | length_not_divisible_by_8
  | wrong_number_of_bits
  | invalid_binary_char
  deriving DecidableEq, Repr

/-- The function `decode<T>(std::string const &)` for an unsigned `T` of
`sizeofT` bytes: strip spaces, the three `throw`s, then the bitset read back
and cast to `T`. -/
def decode (sizeofT : Nat) (input : List Byte) : Except invalid_input Nat :=
  let tmp := strip_spaces input
  if tmp.length % 8 ≠ 0 then .error invalid_input.length_not_divisible_by_8
  else if tmp.length / 8 ≠ sizeofT then .error invalid_input.wrong_number_of_bits
  else if find_first_not_of tmp (str "10") ≠ none then .error invalid_input.invalid_binary_char
  else
    let bits := bitset_of_string (sizeofT * 8) tmp
    .ok (bits % 2 ^ (sizeofT * 8))

end hmr.binary

/-! ## crypto.hpp and the helpers it calls -/

namespace hmr

/-- The ways a cipher-mode call ends without a result: a failed `assert`
(a contract violation) or the padding error of `unpad`. -/
inductive Failure where
  | contract_violation
  | invalid_padding
  deriving DecidableEq, Repr

/-- The call `input.substr(pos, n)`, also `std::string(input.data() + pos, n)`
for a range inside the string. -/
def substr (input : List Byte) (pos n : Nat) : List Byte := (input.drop pos).take n

namespace pkcs7

/-- Modelled from the spec: `hmr::pkcs7::pad` lives in `pkcs7.hpp`, which is
not among the sources.  With `N = block_size - len mod block_size`, `N` bytes
of value `N` are appended; a block-aligned input is returned as it is, which
is how the spec describes the source. -/
def pad (input : List Byte) (block_size : Nat) : List Byte :=
  let N := block_size - input.length % block_size
  if N = block_size then input else input ++ List.replicate N (toByte N)

/-- Modelled from the spec: `hmr::pkcs7::unpad` lives in `pkcs7.hpp`, which is
not among the sources.  The last byte is read as `N`; unless
`1 ≤ N ≤ block_size` and the last `N` bytes all equal `N` the call fails with
the padding error, otherwise those `N` bytes are removed. -/
def unpad (input : List Byte) (block_size : Nat) : Except Failure (List Byte) :=
  match input.getLast? with
  | none => .error Failure.invalid_padding
  | some last =>
    let N := last.val
    if 1 ≤ N ∧ N ≤ block_size ∧ N ≤ input.length
        ∧ (input.drop (input.length - N)).all (fun c => c = last) then
      .ok (input.take (input.length - N))
    else .error Failure.invalid_padding

end pkcs7

namespace bitwise

/-- Modelled from the spec: `hmr::bitwise::xor_with_key` is not among the
sources.  The engine calls it on two 16-byte strings, where it is the
bytewise XOR. -/
def xor_with_key (input key : List Byte) : List Byte :=
  List.zipWith (fun a b => toByte (a.val ^^^ b.val)) input key

end bitwise

namespace crypto

/-- The external AES primitive: `AES_encrypt` / `AES_decrypt` of one block
under the key schedule of a 16-byte key, each as a function of the block and
the key. -/
structure BlockCipher where
  AES_encrypt : List Byte → List Byte → List Byte
  AES_decrypt : List Byte → List Byte → List Byte

/-- The primitive writes a 16-byte block for a 16-byte block and key. -/
def BlockCipher.WellSized (P : BlockCipher) : Prop :=
  ∀ b k : List Byte, b.length = 16 → k.length = 16 →
    (P.AES_encrypt b k).length = 16 ∧ (P.AES_decrypt b k).length = 16

/-- Decrypting an encrypted block under the same key gives the block back. -/
def BlockCipher.Inverse (P : BlockCipher) : Prop :=
  ∀ b k : List Byte, b.length = 16 → k.length = 16 →
    P.AES_decrypt (P.AES_encrypt b k) k = b

/-- The function `aes_ecb_encrypt_block`: the two size assertions, then the
primitive. -/
def aes_ecb_encrypt_block (P : BlockCipher) (input key : List Byte) :
    Except Failure (List Byte) :=
  if input.length ≠ 16 then .error Failure.contract_violation
  else if key.length ≠ 16 then .error Failure.contract_violation
  else .ok (P.AES_encrypt input key)

/-- The function `aes_ecb_decrypt_block`: the two size assertions, then the
primitive. -/
def aes_ecb_decrypt_block (P : BlockCipher) (input key : List Byte) :
    Except Failure (List Byte) :=
  if input.length ≠ 16 then .error Failure.contract_violation
  else if key.length ≠ 16 then .error Failure.contract_violation
  else .ok (P.AES_decrypt input key)

/-- The loop `for (offset = 0; offset < bound; offset += 16)`: `body` runs
once for each of the offsets 0, 16, 32, ... below `bound`, in order, on the
loop state; a failure inside the body ends the call. -/
def for_each_offset {σ : Type} (bound : Nat) (body : Nat → σ → Except Failure σ)
    (init : σ) : Except Failure σ :=
  (List.range ((bound + 15) / 16)).foldlM (fun state j => body (16 * j) state) init

/-- The function `aes_ecb_encrypt`.  After the loop over the complete blocks
`offset` is `num_blocks * 16`; a misaligned input has its tail padded and
encrypted as a last block. -/
def aes_ecb_encrypt (P : BlockCipher) (input key : List Byte) : Except Failure (List Byte) :=
  if key.length ≠ 16 then .error Failure.contract_violation
  else
    let len := input.length
    let num_blocks := len / 16
    let loop := for_each_offset (num_blocks * 16) (fun offset result =>
      match aes_ecb_encrypt_block P (substr input offset 16) key with
      | .error e => .error e
      | .ok encrypted_block => .ok (result ++ encrypted_block)) []
    match loop with
    | .error e => .error e
    | .ok result =>
      let offset := num_blocks * 16
      if len % 16 ≠ 0 then
        let final_block := pkcs7.pad (substr input offset (len - offset)) 16
        match aes_ecb_encrypt_block P final_block key with
        | .error e => .error e
        | .ok encrypted_block => .ok (result ++ encrypted_block)
      else .ok result

/-- The function `aes_ecb_decrypt`.  The loop state is `current_block`
(starting at 1) and `result`; only the block with
`current_block == num_blocks` is unpadded, and only on request. -/
def aes_ecb_decrypt (P : BlockCipher) (input key : List Byte) (remove_padding : Bool) :
    Except Failure (List Byte) :=
  let len := input.length
  if len % 16 ≠ 0 then .error Failure.contract_violation
  else
    let num_blocks := len / 16
    let loop := for_each_offset len (fun offset (state : Nat × List Byte) =>
      let current_block := state.1
      let result := state.2
      match aes_ecb_decrypt_block P (substr input offset 16) key with
      | .error e => .error e
      | .ok decrypted_block =>
        if current_block = num_blocks then
          if remove_padding then
            match pkcs7.unpad decrypted_block 16 with
            | .error e => .error e
            | .ok unpadded => .ok (current_block + 1, result ++ unpadded)
          else .ok (current_block + 1, result ++ decrypted_block)
        else .ok (current_block + 1, result ++ decrypted_block)) (1, [])
    match loop with
    | .error e => .error e
    | .ok state => .ok state.2

/-- The function `aes_cbc_encrypt`.  The loop state is `previous_ciphertext`
(starting at the IV) and `result`. -/
def aes_cbc_encrypt (P : BlockCipher) (input key iv : List Byte) : Except Failure (List Byte) :=
  if key.length ≠ 16 then .error Failure.contract_violation
  else if iv.length ≠ 16 then .error Failure.contract_violation
  else
    let len := input.length
    let num_blocks := len / 16
    let loop := for_each_offset (num_blocks * 16) (fun offset (state : List Byte × List Byte) =>
      let previous_ciphertext := state.1
      let result := state.2
      let xord := bitwise.xor_with_key (substr input offset 16) previous_ciphertext
      match aes_ecb_encrypt_block P xord key with
      | .error e => .error e
      | .ok encrypted_block => .ok (encrypted_block, result ++ encrypted_block)) (iv, [])
    match loop with
    | .error e => .error e
    | .ok state =>
      let previous_ciphertext := state.1
      let result := state.2
      let offset := num_blocks * 16
      if len % 16 ≠ 0 then
        let final_block := pkcs7.pad (substr input offset (len - offset)) 16
        let xord := bitwise.xor_with_key final_block previous_ciphertext
        match aes_ecb_encrypt_block P xord key with
        | .error e => .error e
        | .ok encrypted_block => .ok (result ++ encrypted_block)
      else .ok result

/-- The function `aes_cbc_decrypt`.  The loop state is `current_block`,
`previous_ciphertext` (starting at the IV, then the ciphertext block just
read) and `result`. -/
def aes_cbc_decrypt (P : BlockCipher) (input key iv : List Byte) (remove_padding : Bool) :
    Except Failure (List Byte) :=
  let len := input.length
  if key.length ≠ 16 then .error Failure.contract_violation
  else if iv.length ≠ 16 then .error Failure.contract_violation
  else if len % 16 ≠ 0 then .error Failure.contract_violation
  else
    let num_blocks := len / 16
    let loop := for_each_offset len (fun offset (state : Nat × List Byte × List Byte) =>
      let current_block := state.1
      let previous_ciphertext := state.2.1
      let result := state.2.2
      match aes_ecb_decrypt_block P (substr input offset 16) key with
      | .error e => .error e
      | .ok decrypted_block =>
        let xord := bitwise.xor_with_key decrypted_block previous_ciphertext
        let previous_ciphertext := substr input offset 16
        if current_block = num_blocks then
          if remove_padding then
            match pkcs7.unpad xord 16 with
            | .error e => .error e
            | .ok unpadded => .ok (current_block + 1, previous_ciphertext, result ++ unpadded)
          else .ok (current_block + 1, previous_ciphertext, result ++ xord)
        else .ok (current_block + 1, previous_ciphertext, result ++ xord)) (1, iv, [])
    match loop with
    | .error e => .error e
    | .ok state => .ok state.2.2

end crypto

end hmr

/-! ## crypto.hpp: the default IV -/

namespace hmr.crypto

/-- The default argument `iv = "\x00...\x00"s` in the declarations of
`aes_cbc_encrypt` and `aes_cbc_decrypt`: a `std::string` of sixteen zero
bytes. -/
def default_iv : List Byte := List.replicate 16 0

end hmr.crypto

/-! ## format.cpp: escape, unescape, split -/

namespace hmr.format

/-- The two helpers of `hmr::hex` that `escape` and `unescape` call.  Their
header, `hamarr/hex.hpp`, is not among the sources: `encode` stands for
`hmr::hex::encode(ch)` on a `uint8_t`, `decode` for `hmr::hex::decode` on a
string of two characters. -/
structure HexHelpers where
  encode : Byte → List Byte
  decode : List Byte → List Byte

/-- The exception `hmr::xcpt::format::need_more_data`, by the `throw` that
raised it. -/
inductive need_more_data where
  | escape_sequence
  | hex_escape_sequence
  deriving DecidableEq, Repr

/-- One pass of the range-for of `escape`: what the `switch (ch)` appends to
`output` for the byte `ch`.  The backslash is the byte `0x5C`. -/
def escape_char (H : HexHelpers) (ch : Byte) : List Byte :=
  if ch.val = 0x0A then [0x5C, chr 'n']
  else if ch.val = 0x0D then [0x5C, chr 'r']
  else if ch.val = 0x5C then [0x5C, 0x5C]
  else if ch.val ≤ 0x1F ∨ ch.val ≥ 0x7F then [0x5C, chr 'x'] ++ H.encode ch
  else [ch]

/-- The function `escape`: the pieces for the bytes of `input`, in order. -/
def escape (H : HexHelpers) (input : List Byte) : List Byte :=
  input.foldl (fun output c => output ++ escape_char H c) []

/-- The `for (pos = begin; pos != end; ++pos)` loop of `unescape`, on the
characters from `pos` to the end; `output` is the string built so far.  After
a backslash the next character selects the `case`; `\x` needs two more
characters, which go to `hmr::hex::decode`. -/
def unescape_loop (H : HexHelpers) :
    List Byte → List Byte → Except need_more_data (List Byte)
  | [], output => .ok output
  | c :: rest, output =>
    if c.val = 0x5C then
      match rest with
      | [] => .error need_more_data.escape_sequence
      | e :: rest1 =>
        if e = chr 'a' then unescape_loop H rest1 (output ++ [0x07])
        else if e = chr 'b' then unescape_loop H rest1 (output ++ [0x08])
        else if e = chr 't' then unescape_loop H rest1 (output ++ [0x09])
        else if e = chr 'n' then unescape_loop H rest1 (output ++ [0x0A])
        else if e = chr 'v' then unescape_loop H rest1 (output ++ [0x0B])
        else if e = chr 'f' then unescape_loop H rest1 (output ++ [0x0C])
        else if e = chr 'r' then unescape_loop H rest1 (output ++ [0x0D])
        else if e = chr 'x' then
          match rest1 with
          | h1 :: h2 :: rest2 => unescape_loop H rest2 (output ++ H.decode [h1, h2])
          | _ => .error need_more_data.hex_escape_sequence
        else unescape_loop H rest1 (output ++ [e])
    else unescape_loop H rest (output ++ [c])

/-- The function `unescape`. -/
def unescape (H : HexHelpers) (input : List Byte) : Except need_more_data (List Byte) :=
  unescape_loop H input []

/-- The call `std::find(first, last, delimiter)`, pointers being offsets into
`input`: the offset of the first `delimiter` at or after `first`, or the
length of `input`. -/
def find_from (input : List Byte) (first : Nat) (delimiter : Byte) : Nat :=
  first + ((input.drop first).takeWhile (fun c => c ≠ delimiter)).length

/-- The `while (second < last && first < last)` loop of `split`, pointers
being offsets into `input`; the first argument bounds the number of passes,
`none` meaning that the bound was reached. -/
def split_loop (input : List Byte) (delimiter : Byte) :
    Nat → Nat → Nat → List (List Byte) → Option (List (List Byte))
  | 0, _, _, _ => none
  | fuel + 1, first, second, segments =>
    let last := input.length
    if second < last ∧ first < last then
      let second := find_from input first delimiter
      let segments :=
        if first ≠ second then segments ++ [substr input first (second - first)] else segments
      let first := second + 1
      split_loop input delimiter fuel first second segments
    else some segments

/-- The function `split`; each pass moves `first` forward, so `len + 1` passes
are enough. -/
def split (input : List Byte) (delimiter : Byte) : Option (List (List Byte)) :=
  split_loop input delimiter (input.length + 1) 0 0 []

end hmr.format

/-! ## Vocabulary of the statements -/

/-- The string `s` with bit `b % 8` of its byte number `b / 8` inverted
(a string shorter than that is unchanged). -/
def flip_bit (s : List Byte) (b : Nat) : List Byte :=
  s.modify (fun c => toByte (c.val ^^^ (1 <<< (b % 8)))) (b / 8)

/-- A malformed input of `hex::decode`, in the words of the spec: upper-cased
and with its spaces removed, it has odd length or a character outside
`0-9A-F`. -/
def hex.Malformed (input : List Byte) : Prop :=
  (strip_spaces (hmr.format.to_upper input)).length % 2 = 1
    ∨ ∃ c ∈ strip_spaces (hmr.format.to_upper input), c ∉ hex.hex_alphabet

instance (input : List Byte) : Decidable (hex.Malformed input) := by
  unfold hex.Malformed
  exact inferInstance

/-- A malformed input of `base64::decode`, in the words of the spec: shorter
than two characters, or with a character outside the alphabet and `=`, or
with a truncated tail (the run before the first `=` has length 1 modulo 4). -/
def base64.Malformed (input : List Byte) : Prop :=
  input.length < 2
    ∨ (∃ c ∈ input, c ∉ base64.base64_alphabet ++ str "=")
    ∨ (input.takeWhile (fun c => c ≠ chr '=')).length % 4 = 1

instance (input : List Byte) : Decidable (base64.Malformed input) := by
  unfold base64.Malformed
  exact inferInstance

/-- A toy block primitive for evaluating the engine: encryption rotates the
block by one byte and XORs the key in, decryption undoes both. -/
def toyCipher : hmr.crypto.BlockCipher where
  AES_encrypt := fun b k => hmr.bitwise.xor_with_key (b.rotate 1) k
  AES_decrypt := fun b k => (hmr.bitwise.xor_with_key b k).rotate 15

/-- The 16-byte key `0, 1, ..., 15` used in the evaluations. -/
def key16 : List Byte := (List.range 16).map toByte


/-- The bytes of the `s`-byte unsigned value `v`, most significant first. -/
def bytes_msb_first (s v : Nat) : List Byte :=
  (List.range s).reverse.map (fun i => toByte (v / 2 ^ (8 * i)))

/-- The two hex digits of a byte in the words of the spec: the character for
the high nibble, then the character for the low nibble. -/
def hex.digits (b : Byte) : List Byte :=
  [hex.hex_alphabet.getD (b.val / 16) 0, hex.hex_alphabet.getD (b.val % 16) 0]

/-- The eight binary digits of a byte in the words of the spec: `'1'` or `'0'`
for bit 7 down to bit 0. -/
def hmr.binary.digits (b : Byte) : List Byte :=
  (List.range 8).reverse.map (fun i => if b.val.testBit i then chr '1' else chr '0')

/-- Strings joined by single spaces. -/
def join_with_spaces (groups : List (List Byte)) : List Byte :=
  List.intercalate [chr ' '] groups

/-- A 16-byte plaintext that ends in the byte `0x01`: fifteen zero bytes, then
a one. -/
def aligned_block : List Byte := List.replicate 15 0 ++ [1]

/-- The call `encrypt` followed by `decrypt` with padding removal, in ECB
mode. -/
def ecb_round_trip (P : hmr.crypto.BlockCipher) (x key : List Byte) :
    Except hmr.Failure (List Byte) :=
  match hmr.crypto.aes_ecb_encrypt P x key with
  | .error e => .error e
  | .ok c => hmr.crypto.aes_ecb_decrypt P c key true

/-- The call `encrypt` followed by `decrypt` with padding removal, in CBC
mode. -/
def cbc_round_trip (P : hmr.crypto.BlockCipher) (x key iv : List Byte) :
    Except hmr.Failure (List Byte) :=
  match hmr.crypto.aes_cbc_encrypt P x key iv with
  | .error e => .error e
  | .ok c => hmr.crypto.aes_cbc_decrypt P c key iv true

/-- Block number `j` of what the encrypt functions work on: a complete
16-byte block of `x`, or, past the complete blocks, the padded tail. -/
def plaintext_block (x : List Byte) (j : Nat) : List Byte :=
  if j < x.length / 16 then hmr.substr x (16 * j) 16
  else hmr.pkcs7.pad (x.drop (x.length / 16 * 16)) 16

/-- The block that precedes block `j` of the ciphertext `c` in the CBC chain:
the IV for the first block, the ciphertext block before it otherwise. -/
def chain_block (c iv : List Byte) (j : Nat) : List Byte :=
  if j = 0 then iv else hmr.substr c (16 * (j - 1)) 16

/-- The helpers of `hex.hpp` in the place of those of `hmr::hex`: the integral
`encode` on one byte (delimited by default) and `decode`. -/
def utils_hex : hmr.format.HexHelpers where
  encode := fun ch => hex.encode_integral 1 ch.val true
  decode := hex.decode

/-- A printable ASCII character, `0x20` to `0x7E`. -/
def printable (c : Byte) : Prop := 0x20 ≤ c.val ∧ c.val ≤ 0x7E

instance (c : Byte) : Decidable (printable c) := by
  unfold printable
  exact inferInstance

/-- What `escape` needs of the hex helpers: a byte is encoded as two printable
characters, which decode to that byte. -/
def hmr.format.HexHelpers.RoundTrip (H : hmr.format.HexHelpers) : Prop :=
  ∀ b : Byte, ∃ h1 h2, H.encode b = [h1, h2] ∧ H.decode [h1, h2] = [b]
    ∧ printable h1 ∧ printable h2

/-- The maximal non-empty runs of characters other than `delimiter`, in
order. -/
def runs (input : List Byte) (delimiter : Byte) : List (List Byte) :=
  (input.splitOn delimiter).filter (fun segment => segment ≠ [])

/-! ## Theorems: base64 -/

namespace base64

theorem shl_or (a k b : Nat) (h : b < 2 ^ k) : a <<< k ||| b = a * 2 ^ k + b := by
  rw [Nat.shiftLeft_eq, Nat.mul_comm a, Nat.mul_add_lt_is_or h]

theorem and_63 (x : Nat) : x &&& 63 = x % 64 := Nat.and_pow_two_sub_one_eq_mod x 6

theorem and_255 (x : Nat) : x &&& 255 = x % 256 := Nat.and_pow_two_sub_one_eq_mod x 8

theorem pack4 (a b c d : Nat) (hb : b < 64) (hc : c < 64) (hd : d < 64) :
    a <<< 18 ||| b <<< 12 ||| c <<< 6 ||| d = a * 262144 + b * 4096 + c * 64 + d := by
  rw [Nat.or_assoc, Nat.or_assoc, shl_or c 6 d (by omega), shl_or b 12 _ (by omega),
    shl_or a 18 _ (by omega)]
  omega

theorem pack3 (a b c : Nat) (hb : b < 64) (hc : c < 64) :
    a <<< 18 ||| b <<< 12 ||| c <<< 6 = a * 262144 + b * 4096 + c * 64 := by
  have h := pack4 a b c 0 hb hc (by omega)
  rw [Nat.or_zero] at h
  omega

theorem pack2 (a b : Nat) (hb : b < 64) :
    a <<< 18 ||| b <<< 12 = a * 262144 + b * 4096 := by
  have h := pack3 a b 0 hb (by omega)
  rw [Nat.zero_shiftLeft, Nat.or_zero] at h
  omega

theorem b64_alphabet_at (i : Nat) (h : i < 64) : b64_to_uint8_t (alphabet_at i) = i := by
  have key : ∀ j : Fin 64, b64_to_uint8_t (alphabet_at j.val) = j.val := by decide
  exact key ⟨i, h⟩

theorem alphabet_at_mem (i : Nat) (h : i < 64) : alphabet_at i ∈ base64_alphabet := by
  have key : ∀ j : Fin 64, alphabet_at j.val ∈ base64_alphabet := by decide
  exact key ⟨i, h⟩

theorem decode_encode_loop (x : List Byte) :
    ∀ output, decode_loop (encode_loop x) output = .ok (output ++ x) := by
  induction x using encode_loop.induct with
  | case1 => intro output; simp [encode_loop, decode_loop]
  | case2 x =>
    intro output
    have hx := x.isLt
    simp only [encode_loop, decode_loop, and_63]
    rw [b64_alphabet_at _ (by omega), b64_alphabet_at _ (by omega), pack2 _ _ (by omega)]
    congr 2
    simp only [List.cons.injEq, and_true]
    apply Fin.ext
    simp only [toByte]
    omega
  | case3 x y =>
    intro output
    have hx := x.isLt
    have hy := y.isLt
    simp only [encode_loop, decode_loop, and_63, and_255]
    rw [b64_alphabet_at _ (by omega), b64_alphabet_at _ (by omega), b64_alphabet_at _ (by omega),
      pack3 _ _ _ (by omega) (by omega)]
    congr 2
    simp only [List.cons.injEq, and_true]
    constructor <;> (apply Fin.ext; simp only [toByte]; omega)
  | case4 x y z rest ih =>
    intro output
    have hx := x.isLt
    have hy := y.isLt
    have hz := z.isLt
    simp only [encode_loop, decode_loop, and_63, and_255, List.cons_append, List.nil_append]
    rw [b64_alphabet_at _ (by omega), b64_alphabet_at _ (by omega), b64_alphabet_at _ (by omega),
      b64_alphabet_at _ (by omega), pack4 _ _ _ _ (by omega) (by omega) (by omega), ih]
    congr 1
    rw [List.append_assoc]
    congr 1
    simp only [List.cons_append, List.nil_append, List.cons.injEq, and_true]
    refine ⟨?_, ?_, ?_⟩ <;> (apply Fin.ext; simp only [toByte]; omega)

end base64

theorem find_first_not_of_eq_none_iff (s chars : List Byte) :
    find_first_not_of s chars = none ↔ ∀ c ∈ s, c ∈ chars := by
  induction s with
  | nil => simp [find_first_not_of]
  | cons c rest ih =>
    by_cases hc : c ∈ chars
    · simp [find_first_not_of, hc, ih]
    · simp [find_first_not_of, hc]

theorem takeWhile_append_replicate (p : Byte → Bool) (s : List Byte) (e : Byte) (k : Nat)
    (hs : ∀ c ∈ s, p c = true) (he : p e = false) :
    (s ++ List.replicate k e).takeWhile p = s := by
  induction s with
  | nil =>
    cases k with
    | zero => rfl
    | succ k => simp [List.replicate_succ, List.takeWhile_cons, he]
  | cons c rest ih =>
    have hc : p c = true := hs c (List.mem_cons_self c rest)
    have hrest : ∀ d ∈ rest, p d = true := fun d hd => hs d (List.mem_cons_of_mem c hd)
    simp [List.takeWhile_cons, hc, ih hrest]

namespace base64

theorem encode_loop_mem (x : List Byte) : ∀ c ∈ encode_loop x, c ∈ base64_alphabet := by
  induction x using encode_loop.induct with
  | case1 => simp [encode_loop]
  | case2 x =>
    intro c hc
    simp only [encode_loop, and_63, List.mem_cons, List.mem_singleton, List.not_mem_nil,
      or_false] at hc
    rcases hc with h | h <;> (rw [h]; exact alphabet_at_mem _ (by omega))
  | case3 x y =>
    intro c hc
    simp only [encode_loop, and_63, List.mem_cons, List.mem_singleton, List.not_mem_nil,
      or_false] at hc
    rcases hc with h | h | h <;> (rw [h]; exact alphabet_at_mem _ (by omega))
  | case4 x y z rest ih =>
    intro c hc
    simp only [encode_loop, and_63, List.mem_cons] at hc
    rcases hc with h | h | h | h | h
    · rw [h]; exact alphabet_at_mem _ (by omega)
    · rw [h]; exact alphabet_at_mem _ (by omega)
    · rw [h]; exact alphabet_at_mem _ (by omega)
    · rw [h]; exact alphabet_at_mem _ (by omega)
    · exact ih c h

theorem alphabet_ne_pad : ∀ c ∈ base64_alphabet, c ≠ chr '=' := by decide

theorem two_le_length_encode_loop (x : List Byte) (hx : x ≠ []) :
    2 ≤ (encode_loop x).length := by
  match x, hx with
  | [_], _ => simp [encode_loop]
  | [_, _], _ => simp [encode_loop]
  | _ :: _ :: _ :: _, _ => simp [encode_loop]

theorem encode_eq (x : List Byte) :
    ∃ k, encode x = encode_loop x ++ List.replicate k (chr '=') := by
  unfold encode
  simp only
  split
  · exact ⟨2, rfl⟩
  · exact ⟨1, rfl⟩
  · exact ⟨0, by simp⟩

theorem decode_traced_encode (x : List Byte) (hx : x ≠ []) :
    decode_traced (encode x) = .ok x := by
  obtain ⟨k, hk⟩ := encode_eq x
  have hlen : ¬ (encode x).length < 2 := by
    have := two_le_length_encode_loop x hx
    rw [hk, List.length_append]
    omega
  have hvalid : find_first_not_of (encode x) (base64_alphabet ++ str "=") = none := by
    rw [find_first_not_of_eq_none_iff, hk]
    intro c hc
    rw [List.mem_append] at hc
    rcases hc with h | h
    · exact List.mem_append_left _ (encode_loop_mem x c h)
    · rw [List.eq_of_mem_replicate h]
      decide
  have hend : (encode x).takeWhile (fun c => c ≠ chr '=') = encode_loop x := by
    rw [hk]
    apply takeWhile_append_replicate
    · intro c hc
      simpa using alphabet_ne_pad c (encode_loop_mem x c hc)
    · simp
  unfold decode_traced
  simp only [hlen, if_false, hvalid, hend]
  simpa using decode_encode_loop x []

/-- C1: for every byte sequence `x`, the empty one included,
`base64::decode(base64::encode(x)) == x`.  (For the empty `x` the decoder takes
its too-short exit, whose result is the empty string.) -/
theorem decode_encode (x : List Byte) : decode (encode x) = x := by
  by_cases hx : x = []
  · subst hx
    decide
  · simp [decode, decode_traced_encode x hx]

end base64

/-! ## Theorems: hex -/

namespace hex

theorem encode_loop_false (x : List Byte) :
    strip_spaces (hmr.format.to_upper (encode_loop false x)) = encode_loop false x := by
  induction x with
  | nil => rfl
  | cons ch rest ih =>
    have key : ∀ c : Byte,
        strip_spaces (hmr.format.to_upper
          [alphabet_at ((c.val &&& 0xF0) >>> 4), alphabet_at (c.val &&& 0x0F)])
          = [alphabet_at ((c.val &&& 0xF0) >>> 4), alphabet_at (c.val &&& 0x0F)] := by
      decide
    have h := key ch
    simp only [strip_spaces, hmr.format.to_upper, List.map_cons, List.map_nil] at h ih
    simp only [encode_loop, strip_spaces, hmr.format.to_upper, List.map_append, List.map_cons,
      List.map_nil, List.filter_append, Bool.false_eq_true, if_false, List.append_nil, h, ih]

theorem encode_loop_true (x : List Byte) :
    strip_spaces (hmr.format.to_upper (encode_loop true x)) = encode_loop false x := by
  induction x with
  | nil => rfl
  | cons ch rest ih =>
    have key : ∀ c : Byte,
        strip_spaces (hmr.format.to_upper
          ([alphabet_at ((c.val &&& 0xF0) >>> 4), alphabet_at (c.val &&& 0x0F)] ++ [chr ' ']))
          = [alphabet_at ((c.val &&& 0xF0) >>> 4), alphabet_at (c.val &&& 0x0F)] := by
      decide
    have h := key ch
    simp only [strip_spaces, hmr.format.to_upper, List.map_cons, List.map_nil,
      List.map_append] at h ih
    simp only [encode_loop, strip_spaces, hmr.format.to_upper, List.map_append, List.map_cons,
      List.map_nil, List.filter_append, if_true, Bool.false_eq_true, if_false,
      List.append_nil, h, ih]

theorem encode_loop_true_snoc (x : List Byte) (hx : x ≠ []) :
    ∃ y, encode_loop true x = y ++ [chr ' '] := by
  induction x with
  | nil => exact absurd rfl hx
  | cons ch rest ih =>
    by_cases hrest : rest = []
    · subst hrest
      exact ⟨[alphabet_at ((ch.val &&& 0xF0) >>> 4), alphabet_at (ch.val &&& 0x0F)], by
        simp [encode_loop]⟩
    · obtain ⟨y, hy⟩ := ih hrest
      exact ⟨[alphabet_at ((ch.val &&& 0xF0) >>> 4), alphabet_at (ch.val &&& 0x0F)]
        ++ [chr ' '] ++ y, by simp [encode_loop, hy]⟩

theorem strip_upper_snoc_space (y : List Byte) :
    strip_spaces (hmr.format.to_upper (y ++ [chr ' '])) = strip_spaces (hmr.format.to_upper y) := by
  have h : strip_spaces (hmr.format.to_upper [chr ' ']) = [] := by decide
  simp only [strip_spaces, hmr.format.to_upper, List.map_append, List.filter_append] at h ⊢
  rw [h, List.append_nil]

theorem length_encode_loop_false (x : List Byte) :
    (encode_loop false x).length = 2 * x.length := by
  induction x with
  | nil => rfl
  | cons ch rest ih => simp [encode_loop, ih]; omega

theorem encode_loop_false_mem (x : List Byte) :
    ∀ c ∈ encode_loop false x, c ∈ hex_alphabet := by
  induction x with
  | nil => simp [encode_loop]
  | cons ch rest ih =>
    have key : ∀ b : Byte, alphabet_at ((b.val &&& 0xF0) >>> 4) ∈ hex_alphabet
        ∧ alphabet_at (b.val &&& 0x0F) ∈ hex_alphabet := by decide
    intro c hc
    simp only [encode_loop, Bool.false_eq_true, if_false, List.append_nil, List.cons_append,
      List.nil_append, List.mem_cons] at hc
    rcases hc with h | h | h
    · rw [h]; exact (key ch).1
    · rw [h]; exact (key ch).2
    · exact ih c h

theorem decode_loop_encode_loop (x : List Byte) : decode_loop (encode_loop false x) = x := by
  induction x with
  | nil => rfl
  | cons ch rest ih =>
    have key : ∀ b : Byte,
        toByte (((alphabet_find (alphabet_at ((b.val &&& 0xF0) >>> 4)) <<< 4) % 2 ^ 64)
          ||| alphabet_find (alphabet_at (b.val &&& 0x0F))) = b := by decide
    simp only [encode_loop, Bool.false_eq_true, if_false, List.append_nil, List.cons_append,
      List.nil_append, decode_loop, key ch, ih, List.append_eq]

theorem decode_traced_of_stripped (s : List Byte) (x : List Byte)
    (hs : strip_spaces (hmr.format.to_upper s) = encode_loop false x) :
    decode_traced s = .ok x := by
  have heven : ¬ ((encode_loop false x).length &&& 1 ≠ 0) := by
    rw [length_encode_loop_false, Nat.and_one_is_mod]
    omega
  have hvalid : find_first_not_of (encode_loop false x) hex_alphabet = none :=
    (find_first_not_of_eq_none_iff _ _).2 (encode_loop_false_mem x)
  unfold decode_traced
  simp only [hs, heven, if_false, hvalid, decode_loop_encode_loop]

/-- The hex round trip wherever `encode` is defined: for a non-empty `x`, or
with `delimited = false`, `encode` yields a string and `decode` returns `x`
from it without logging an error. -/
theorem decode_encode_of_defined (x : List Byte) (delimited : Bool)
    (h : x ≠ [] ∨ delimited = false) :
    ∃ s, encode x delimited = some s ∧ decode_traced s = .ok x ∧ decode s = x := by
  cases delimited with
  | false =>
    refine ⟨encode_loop false x, by simp [encode], ?_⟩
    have ht := decode_traced_of_stripped _ x (encode_loop_false x)
    exact ⟨ht, by simp [decode, ht]⟩
  | true =>
    have hx : x ≠ [] := by
      rcases h with h | h
      · exact h
      · exact absurd h (by decide)
    obtain ⟨y, hy⟩ := encode_loop_true_snoc x hx
    have hpop : encode x true = some y := by
      have hd : (y ++ [chr ' ']).dropLast = y := List.dropLast_concat
      simp only [encode, if_true, hy]
      cases y with
      | nil => rfl
      | cons c cs => simp only [List.cons_append, pop_back]; rw [← List.cons_append, hd]
    have hstrip : strip_spaces (hmr.format.to_upper y) = encode_loop false x := by
      rw [← strip_upper_snoc_space, ← hy, encode_loop_true]
    have ht := decode_traced_of_stripped y x hstrip
    exact ⟨y, hpop, ht, by simp [decode, ht]⟩

theorem decode_encode_of_defined_witness :
    ∃ s, encode (str "AB") true = some s ∧ decode_traced s = .ok (str "AB")
      ∧ decode s = str "AB" :=
  decode_encode_of_defined (str "AB") true (Or.inl (by decide))

/-- C2, the failing input: with `delimited = true` the empty input makes
`hex::encode` call `pop_back()` on an empty string, so the encoder has no
defined result to decode, while any non-empty input (here one byte) and the
undelimited empty input encode and decode back. -/
theorem encode_empty_delimited_undefined :
    encode [] true = none ∧ encode [] false = some []
      ∧ encode [0x41] true = some (str "41") ∧ decode (str "41") = [0x41] := by
  decide

end hex

namespace hex

theorem length_decode_loop (s : List Byte) : (decode_loop s).length = (s.length + 1) / 2 := by
  induction s using decode_loop.induct with
  | case1 => rfl
  | case2 c1 => simp [decode_loop]
  | case3 c1 c2 rest ih =>
    simp only [decode_loop, List.length_cons, ih]
    omega

theorem decode_traced_of_malformed (input : List Byte) (h : Malformed input) :
    ∃ e, decode_traced input = .error e := by
  unfold decode_traced
  simp only [Nat.and_one_is_mod]
  rcases h with h | ⟨c, hc, hnot⟩
  · exact ⟨Failure.odd_length, by simp [h]⟩
  · by_cases hodd : (strip_spaces (hmr.format.to_upper input)).length % 2 ≠ 0
    · exact ⟨Failure.odd_length, by simp [hodd]⟩
    · have hsome : find_first_not_of (strip_spaces (hmr.format.to_upper input)) hex_alphabet
          ≠ none := by
        rw [Ne, find_first_not_of_eq_none_iff]
        exact fun hall => hnot (hall c hc)
      obtain ⟨e, he⟩ := Option.ne_none_iff_exists'.1 hsome
      exact ⟨Failure.invalid_char e, by simp [hodd, he]⟩

theorem decode_traced_of_not_malformed (input : List Byte) (h : ¬ Malformed input) :
    decode_traced input = .ok (decode_loop (strip_spaces (hmr.format.to_upper input))) := by
  unfold Malformed at h
  rw [not_or] at h
  have hvalid : find_first_not_of (strip_spaces (hmr.format.to_upper input)) hex_alphabet
      = none := by
    rw [find_first_not_of_eq_none_iff]
    intro c hc
    by_contra hnot
    exact h.2 ⟨c, hc, hnot⟩
  have heven : (strip_spaces (hmr.format.to_upper input)).length % 2 = 0 := by omega
  unfold decode_traced
  simp only [Nat.and_one_is_mod, heven, hvalid, ne_eq, not_true_eq_false, if_false]

theorem decode_of_malformed (input : List Byte) (h : Malformed input) : decode input = [] := by
  obtain ⟨e, he⟩ := decode_traced_of_malformed input h
  simp [decode, he]

/-- C10: `hex::decode` takes one of its two error exits, returning no decoded
bytes, for every input whose upper-cased, space-stripped form has odd length
or a character outside `0-9A-F`; for every other input it succeeds with
exactly one output byte per two stripped characters. -/
theorem decode_fails_iff_malformed (input : List Byte) :
    (((strip_spaces (hmr.format.to_upper input)).length % 2 = 1
        ∨ ∃ c ∈ strip_spaces (hmr.format.to_upper input), c ∉ hex_alphabet) →
      (∃ e, decode_traced input = .error e) ∧ decode input = [])
    ∧ (¬ ((strip_spaces (hmr.format.to_upper input)).length % 2 = 1
        ∨ ∃ c ∈ strip_spaces (hmr.format.to_upper input), c ∉ hex_alphabet) →
      decode_traced input = .ok (decode input)
        ∧ 2 * (decode input).length = (strip_spaces (hmr.format.to_upper input)).length) := by
  constructor
  · intro h
    exact ⟨decode_traced_of_malformed input h, decode_of_malformed input h⟩
  · intro h
    have ht := decode_traced_of_not_malformed input h
    have hd : decode input = decode_loop (strip_spaces (hmr.format.to_upper input)) := by
      simp [decode, ht]
    rw [hd]
    refine ⟨ht, ?_⟩
    rw [length_decode_loop]
    rw [not_or] at h
    omega

/-- C10 at concrete inputs: `"4a 4"` (odd) and `"4g"` (bad character) fail,
`"4a 4B"` decodes to two bytes. -/
theorem decode_fails_iff_malformed_witness :
    ((∃ e, decode_traced (str "4a 4") = .error e) ∧ decode (str "4a 4") = [])
    ∧ ((∃ e, decode_traced (str "4g") = .error e) ∧ decode (str "4g") = [])
    ∧ (decode_traced (str "4a 4B") = .ok (decode (str "4a 4B"))
        ∧ 2 * (decode (str "4a 4B")).length
          = (strip_spaces (hmr.format.to_upper (str "4a 4B"))).length) :=
  ⟨(decode_fails_iff_malformed (str "4a 4")).1 (by decide),
   (decode_fails_iff_malformed (str "4g")).1 (by decide),
   (decode_fails_iff_malformed (str "4a 4B")).2 (by decide)⟩

end hex

/-! ## Theorems: binary -/

namespace hmr.binary

theorem length_bitset_to_string (N v : Nat) : (bitset_to_string N v).length = N := by
  induction N generalizing v with
  | zero => rfl
  | succ N ih => simp [bitset_to_string, ih]

theorem bitset_to_string_mem (N v : Nat) :
    ∀ c ∈ bitset_to_string N v, c = chr '0' ∨ c = chr '1' := by
  induction N generalizing v with
  | zero => simp [bitset_to_string]
  | succ N ih =>
    intro c hc
    simp only [bitset_to_string, List.mem_append, List.mem_singleton] at hc
    rcases hc with h | h
    · exact ih _ c h
    · split at h
      · exact Or.inr h
      · exact Or.inl h

theorem strip_spaces_bitset_to_string (N v : Nat) :
    strip_spaces (bitset_to_string N v) = bitset_to_string N v := by
  unfold strip_spaces
  rw [List.filter_eq_self]
  intro c hc
  rcases bitset_to_string_mem N v c hc with h | h <;> (rw [h]; decide)

theorem strip_spaces_append (s t : List Byte) :
    strip_spaces (s ++ t) = strip_spaces s ++ strip_spaces t := by
  simp [strip_spaces]

theorem strip_spaces_space : strip_spaces [chr ' '] = [] := by decide

theorem strip_spaces_join (a b : List Byte) :
    strip_spaces (a ++ ([chr ' '] ++ b)) = strip_spaces a ++ strip_spaces b := by
  rw [strip_spaces_append, strip_spaces_append, strip_spaces_space, List.nil_append]

theorem bitset_to_string_mod (N v : Nat) :
    bitset_to_string N (v % 2 ^ N) = bitset_to_string N v := by
  induction N generalizing v with
  | zero => rfl
  | succ N ih =>
    simp only [bitset_to_string]
    have h1 : v % 2 ^ (N + 1) / 2 = (v / 2) % 2 ^ N := by
      rw [Nat.pow_succ, Nat.mul_comm, Nat.mod_mul_right_div_self]
    have h2 : v % 2 ^ (N + 1) % 2 = v % 2 := by
      rw [Nat.pow_succ, Nat.mul_comm, Nat.mod_mul_right_mod]
    rw [h1, h2, ih]

theorem bitset_to_string_add (m n v : Nat) :
    bitset_to_string (m + n) v = bitset_to_string m (v / 2 ^ n) ++ bitset_to_string n v := by
  induction n generalizing v with
  | zero => simp [bitset_to_string]
  | succ n ih =>
    have h : v / 2 / 2 ^ n = v / 2 ^ (n + 1) := by
      rw [Nat.div_div_eq_div_mul, Nat.pow_succ, Nat.mul_comm]
    rw [← Nat.add_assoc]
    simp only [bitset_to_string, ih, h, List.append_assoc]

theorem foldl_bits_append (s : List Byte) (acc : Nat) (c : Byte) :
    (s ++ [c]).foldl (fun acc c => 2 * acc + (if c = chr '1' then 1 else 0)) acc
      = 2 * s.foldl (fun acc c => 2 * acc + (if c = chr '1' then 1 else 0)) acc
        + (if c = chr '1' then 1 else 0) := by
  rw [List.foldl_append]
  rfl

theorem bitset_of_string_to_string (N v : Nat) :
    bitset_of_string N (bitset_to_string N v) = v % 2 ^ N := by
  unfold bitset_of_string
  rw [List.take_of_length_le (by rw [length_bitset_to_string])]
  induction N generalizing v with
  | zero => simp [bitset_to_string, Nat.mod_one]
  | succ N ih =>
    simp only [bitset_to_string]
    rw [foldl_bits_append, ih]
    have h0 : chr '0' ≠ chr '1' := by decide
    have hv : v % 2 ^ (N + 1) = 2 * (v / 2 % 2 ^ N) + v % 2 := by
      rw [Nat.pow_succ, Nat.mul_comm (2 ^ N) 2, Nat.mod_mul, Nat.add_comm]
    rw [hv]
    by_cases hb : v % 2 = 1
    · simp [hb]
    · have : v % 2 = 0 := by omega
      simp [this, h0]

theorem mask_shift (v k : Nat) : ((v &&& (255 <<< k)) >>> k) % 256 = v / 2 ^ k % 256 := by
  have h : (v &&& (255 <<< k)) >>> k = (v >>> k) &&& 255 := by
    apply Nat.eq_of_testBit_eq
    intro i
    simp [Nat.testBit_shiftRight, Nat.testBit_and, Nat.testBit_shiftLeft]
  rw [h, Nat.shiftRight_eq_div_pow]
  have h255 : v / 2 ^ k &&& 255 = v / 2 ^ k % 256 := Nat.and_pow_two_sub_one_eq_mod _ 8
  rw [h255, Nat.mod_mod]

theorem byte_string (v k mask : Nat) (hmask : 255 <<< k = mask) :
    bitset_to_string 8 (((v &&& mask) >>> k) % 256) = bitset_to_string 8 (v / 2 ^ k) := by
  subst hmask
  rw [mask_shift]
  exact bitset_to_string_mod 8 _

theorem low_byte_string (v : Nat) :
    bitset_to_string 8 ((v &&& 255) % 256) = bitset_to_string 8 v := by
  have h255 : v &&& 255 = v % 256 := Nat.and_pow_two_sub_one_eq_mod _ 8
  rw [h255, Nat.mod_mod]
  exact bitset_to_string_mod 8 v

theorem split_16 (v : Nat) :
    bitset_to_string 16 v = bitset_to_string 8 (v / 2 ^ 8) ++ bitset_to_string 8 v :=
  bitset_to_string_add 8 8 v

theorem split_32 (v : Nat) :
    bitset_to_string 32 v = bitset_to_string 8 (v / 2 ^ 24) ++ (bitset_to_string 8 (v / 2 ^ 16)
      ++ (bitset_to_string 8 (v / 2 ^ 8) ++ bitset_to_string 8 v)) := by
  have h1 := bitset_to_string_add 8 24 v
  have h2 := bitset_to_string_add 8 16 v
  simp only [Nat.reduceAdd] at h1 h2
  rw [h1, h2, split_16]

theorem split_64 (v : Nat) :
    bitset_to_string 64 v = bitset_to_string 8 (v / 2 ^ 56) ++ (bitset_to_string 8 (v / 2 ^ 48)
      ++ (bitset_to_string 8 (v / 2 ^ 40) ++ (bitset_to_string 8 (v / 2 ^ 32)
      ++ (bitset_to_string 8 (v / 2 ^ 24) ++ (bitset_to_string 8 (v / 2 ^ 16)
      ++ (bitset_to_string 8 (v / 2 ^ 8) ++ bitset_to_string 8 v)))))) := by
  have h1 := bitset_to_string_add 8 56 v
  have h2 := bitset_to_string_add 8 48 v
  have h3 := bitset_to_string_add 8 40 v
  have h4 := bitset_to_string_add 8 32 v
  simp only [Nat.reduceAdd] at h1 h2 h3 h4
  rw [h1, h2, h3, h4, split_32]

/-- With its spaces removed, the delimited rendering is the undelimited one. -/
theorem strip_spaces_encode (s v : Nat) (delimited : Bool)
    (hs : s = 1 ∨ s = 2 ∨ s = 4 ∨ s = 8) :
    strip_spaces (encode s v delimited) = bitset_to_string (s * 8) v := by
  cases delimited with
  | false => simp [encode, strip_spaces_bitset_to_string]
  | true =>
    rcases hs with h | h | h | h <;> subst h
    · simp [encode, strip_spaces_bitset_to_string]
    · have e1 := byte_string v 8 0xFF00 (by decide)
      have e0 := low_byte_string v
      simp only [encode, if_true, toByte, List.append_assoc, strip_spaces_join,
        strip_spaces_bitset_to_string]
      rw [show (2 * 8 : Nat) = 16 from rfl, split_16]
      simp only [e0, e1]
    · have e3 := byte_string v 24 0xFF000000 (by decide)
      have e2 := byte_string v 16 0xFF0000 (by decide)
      have e1 := byte_string v 8 0xFF00 (by decide)
      have e0 := low_byte_string v
      simp only [encode, if_true, toByte, List.append_assoc, strip_spaces_join,
        strip_spaces_bitset_to_string]
      rw [show (4 * 8 : Nat) = 32 from rfl, split_32]
      simp only [e0, e1, e2, e3]
    · have e7 := byte_string v 56 0xFF00000000000000 (by decide)
      have e6 := byte_string v 48 0xFF000000000000 (by decide)
      have e5 := byte_string v 40 0xFF0000000000 (by decide)
      have e4 := byte_string v 32 0xFF00000000 (by decide)
      have e3 := byte_string v 24 0xFF000000 (by decide)
      have e2 := byte_string v 16 0xFF0000 (by decide)
      have e1 := byte_string v 8 0xFF00 (by decide)
      have e0 := low_byte_string v
      simp only [encode, if_true, toByte, List.append_assoc, strip_spaces_join,
        strip_spaces_bitset_to_string]
      rw [show (8 * 8 : Nat) = 64 from rfl, split_64]
      simp only [e0, e1, e2, e3, e4, e5, e6, e7]

theorem find_first_not_of_bitset (N v : Nat) :
    find_first_not_of (bitset_to_string N v) (str "10") = none := by
  rw [find_first_not_of_eq_none_iff]
  intro c hc
  rcases bitset_to_string_mem N v c hc with h | h <;> subst h <;> decide

/-- C3: for a width of 8, 16, 32 or 64 bits (`s` = 1, 2, 4 or 8 bytes), every
value `v` of that width and both delimiter settings,
`decode<T>(encode(v, delimited))` returns `v` and raises no `invalid_input`. -/
theorem decode_encode_value (s v : Nat) (delimited : Bool)
    (hs : s = 1 ∨ s = 2 ∨ s = 4 ∨ s = 8) (hv : v < 2 ^ (s * 8)) :
    decode s (encode s v delimited) = .ok v := by
  unfold decode
  simp only [strip_spaces_encode s v delimited hs, length_bitset_to_string,
    find_first_not_of_bitset, bitset_of_string_to_string]
  have h1 : s * 8 % 8 = 0 := by omega
  have h2 : s * 8 / 8 = s := by omega
  simp [h1, h2, Nat.mod_eq_of_lt hv]

/-- C3 at a concrete input: the 64-bit value `0xFEDCBA9876543210`, delimited. -/
theorem decode_encode_value_witness :
    decode 8 (encode 8 0xFEDCBA9876543210 true) = .ok 0xFEDCBA9876543210 :=
  decode_encode_value 8 0xFEDCBA9876543210 true (by decide) (by decide)

/-- C9: `decode<T>` raises `invalid_input` exactly when the input, with every
space removed, has a length other than `8 * sizeof(T)` or holds a character
other than `'0'` and `'1'`; a bit count not divisible by 8 raises at the
first check, and a multiple of 8 that is not the width of `T` at the second. -/
theorem decode_raises_iff (sizeofT : Nat) (input : List Byte) :
    ((∃ e, decode sizeofT input = .error e) ↔
      ((strip_spaces input).length ≠ 8 * sizeofT
        ∨ ∃ c ∈ strip_spaces input, c ≠ chr '0' ∧ c ≠ chr '1'))
    ∧ ((strip_spaces input).length % 8 ≠ 0 →
        decode sizeofT input = .error invalid_input.length_not_divisible_by_8)
    ∧ ((strip_spaces input).length % 8 = 0 → (strip_spaces input).length ≠ 8 * sizeofT →
        decode sizeofT input = .error invalid_input.wrong_number_of_bits) := by
  have hmem : ∀ c : Byte, c ∈ str "10" ↔ (c = chr '1' ∨ c = chr '0') := by decide
  refine ⟨?_, ?_, ?_⟩
  · unfold decode
    simp only []
    split_ifs with h8 hw hc
    · exact ⟨fun _ => Or.inl (by omega), fun _ => ⟨_, rfl⟩⟩
    · exact ⟨fun _ => Or.inl (by omega), fun _ => ⟨_, rfl⟩⟩
    · refine ⟨fun _ => Or.inr ?_, fun _ => ⟨_, rfl⟩⟩
      rw [Ne, find_first_not_of_eq_none_iff] at hc
      push_neg at hc
      obtain ⟨c, hc1, hc2⟩ := hc
      rw [hmem] at hc2
      push_neg at hc2
      exact ⟨c, hc1, hc2.2, hc2.1⟩
    · constructor
      · rintro ⟨e, he⟩
        exact absurd he (by simp)
      · rintro (h | ⟨c, hc1, hc2, hc3⟩)
        · exfalso
          omega
        · exfalso
          apply hc
          rw [Ne, find_first_not_of_eq_none_iff]
          intro hall
          rcases (hmem c).1 (hall c hc1) with h | h
          · exact hc3 h
          · exact hc2 h
  · intro h8
    unfold decode
    simp only []
    rw [if_pos h8]
  · intro h8 hw
    have hw2 : (strip_spaces input).length / 8 ≠ sizeofT := by omega
    unfold decode
    simp only []
    rw [if_neg (by omega), if_pos hw2]

/-- C9 at concrete inputs of `decode<uint16_t>`: 15 bits, 8 bits and a `2`
among 16 characters all raise. -/
theorem decode_raises_iff_witness :
    decode 2 (str "0000000 11111111") = .error invalid_input.length_not_divisible_by_8
    ∧ decode 2 (str "11111111") = .error invalid_input.wrong_number_of_bits
    ∧ (∃ e, decode 2 (str "00000000 11111112") = .error e) :=
  ⟨(decode_raises_iff 2 (str "0000000 11111111")).2.1 (by decide),
   (decode_raises_iff 2 (str "11111111")).2.2 (by decide) (by decide),
   (decode_raises_iff 2 (str "00000000 11111112")).1.2 (Or.inr (by decide))⟩

end hmr.binary

/-! ## base64: malformed input, literal vectors, shape of the output -/

namespace base64

theorem decode_loop_of_truncated (s output : List Byte) (h : s.length % 4 = 1) :
    decode_loop s output = .error Failure.one_byte_left := by
  induction s, output using decode_loop.induct with
  | case1 output => simp at h
  | case2 c output => rfl
  | case3 ca cb output => simp at h
  | case4 ca cb cc output => simp at h
  | case5 ca cb cc cd rest output a b c d n d1 d2 d3 ih =>
    rw [decode_loop]
    apply ih
    simp only [List.length_cons] at h
    omega

theorem decode_loop_of_not_truncated (s output : List Byte) (h : s.length % 4 ≠ 1) :
    ∃ decoded, decode_loop s output = .ok (output ++ decoded) := by
  induction s, output using decode_loop.induct with
  | case1 output => exact ⟨[], by simp [decode_loop]⟩
  | case2 c output => simp at h
  | case3 ca cb output => exact ⟨_, rfl⟩
  | case4 ca cb cc output => exact ⟨_, rfl⟩
  | case5 ca cb cc cd rest output a b c d n d1 d2 d3 ih =>
    rw [decode_loop]
    obtain ⟨decoded, hd⟩ := ih (by simp only [List.length_cons] at h; omega)
    exact ⟨[d1, d2, d3] ++ decoded, by rw [hd, List.append_assoc]⟩

theorem find_first_not_of_of_mem (s chars : List Byte) (h : ∃ c ∈ s, c ∉ chars) :
    ∃ e, find_first_not_of s chars = some e := by
  cases hf : find_first_not_of s chars with
  | some e => exact ⟨e, rfl⟩
  | none =>
    rw [find_first_not_of_eq_none_iff] at hf
    obtain ⟨c, hc, hn⟩ := h
    exact absurd (hf c hc) hn

theorem decode_traced_of_truncated_or_invalid (input : List Byte) (h : Malformed input) :
    ∃ e, decode_traced input = .error e := by
  unfold decode_traced
  simp only
  by_cases hlen : input.length < 2
  · exact ⟨_, if_pos hlen⟩
  · rw [if_neg hlen]
    rcases h with h | h | h
    · exact absurd h hlen
    · obtain ⟨e, he⟩ := find_first_not_of_of_mem _ _ h
      rw [he]
      exact ⟨_, rfl⟩
    · cases hf : find_first_not_of input (base64_alphabet ++ str "=") with
      | some e => exact ⟨_, rfl⟩
      | none => exact ⟨_, decode_loop_of_truncated _ _ h⟩

theorem decode_traced_of_well_formed (input : List Byte) (h : ¬ Malformed input) :
    ∃ decoded, decode_traced input = .ok decoded := by
  unfold Malformed at h
  push_neg at h
  obtain ⟨h1, h2, h3⟩ := h
  have hf : find_first_not_of input (base64_alphabet ++ str "=") = none := by
    rw [find_first_not_of_eq_none_iff]
    exact h2
  unfold decode_traced
  simp only
  rw [if_neg (by omega), hf]
  obtain ⟨decoded, hd⟩ := decode_loop_of_not_truncated _ [] h3
  exact ⟨decoded, by simpa using hd⟩

/-- C11: `base64::decode` reports malformed input: for an input shorter than
two characters, or with a character outside the alphabet and `=`, or whose run
of characters before the first `=` has length 1 modulo 4, the call takes one of
its `LOG_ERROR` exits, and what it returns is the empty string, with none of
the bytes decoded from earlier complete groups. -/
theorem decode_reports_malformed (input : List Byte) (h : Malformed input) :
    (∃ e, decode_traced input = .error e) ∧ decode input = [] := by
  obtain ⟨e, he⟩ := decode_traced_of_truncated_or_invalid input h
  exact ⟨⟨e, he⟩, by simp [decode, he]⟩

theorem decode_reports_malformed_witness :
    Malformed (str "TWFuT")
      ∧ ((∃ e, decode_traced (str "TWFuT") = .error e) ∧ decode (str "TWFuT") = []) :=
  ⟨by decide, decode_reports_malformed (str "TWFuT") (by decide)⟩

/-- C12: the base64 literal vectors: `encode("") == ""`,
`encode("M") == "TQ=="`, `encode("Ma") == "TWE="` and
`encode("Man") == "TWFu"`. -/
theorem encode_vectors :
    encode (str "") = str "" ∧ encode (str "M") = str "TQ=="
      ∧ encode (str "Ma") = str "TWE=" ∧ encode (str "Man") = str "TWFu" := by
  decide

theorem length_encode_loop (x : List Byte) :
    (encode_loop x).length = (4 * x.length + 2) / 3 := by
  induction x using encode_loop.induct with
  | case1 => rfl
  | case2 x => simp [encode_loop]
  | case3 x y => simp [encode_loop]
  | case4 x y z rest ih =>
    simp only [encode_loop, List.length_cons, ih]
    omega

/-- C13: for every byte sequence `x` of length `n`, `base64::encode(x)` has
length `4 * ceil(n / 3)`, a multiple of 4, and is a run of characters of the
64-character alphabet (none of them `=`) followed by exactly
`(3 - n mod 3) mod 3` characters `=`. -/
theorem encode_shape (x : List Byte) :
    (encode x).length = 4 * ((x.length + 2) / 3)
      ∧ (encode x).length % 4 = 0
      ∧ ∃ body, encode x = body ++ List.replicate ((3 - x.length % 3) % 3) (chr '=')
          ∧ (∀ c ∈ body, c ∈ base64_alphabet) ∧ (∀ c ∈ body, c ≠ chr '=') := by
  have hl := length_encode_loop x
  have hbody : ∀ c ∈ encode_loop x, c ≠ chr '=' :=
    fun c hc => alphabet_ne_pad c (encode_loop_mem x c hc)
  have h3 : x.length % 3 = 0 ∨ x.length % 3 = 1 ∨ x.length % 3 = 2 := by omega
  have key : encode x
      = encode_loop x ++ List.replicate ((3 - x.length % 3) % 3) (chr '=') := by
    unfold encode
    simp only
    rcases h3 with h | h | h <;> simp [h]
  have hlen : (encode x).length = 4 * ((x.length + 2) / 3) := by
    rw [key, List.length_append, List.length_replicate, hl]
    omega
  exact ⟨hlen, by omega, encode_loop x, key, encode_loop_mem x, hbody⟩

end base64

/-! ## hex: literal vectors, shape of the output, the integral overload -/

namespace hex

/-- C14: the hex literal vectors: `encode("AB", delimited=false) == "4142"`
and `decode("41 42") == "AB"`. -/
theorem hex_vectors :
    encode (str "AB") false = some (str "4142") ∧ decode (str "41 42") = str "AB" := by
  decide

theorem encode_pair_eq_digits : ∀ b : Byte,
    [alphabet_at ((b.val &&& 0xF0) >>> 4), alphabet_at (b.val &&& 0x0F)] = digits b := by
  decide

theorem digit_mem : ∀ i : Fin 16,
    hex_alphabet.getD i.val 0 ∈ hex_alphabet ∧ hex_alphabet.getD i.val 0 ≠ chr ' ' := by
  decide

theorem digits_mem (b : Byte) : ∀ c ∈ digits b, c ∈ hex_alphabet ∧ c ≠ chr ' ' := by
  intro c hc
  simp only [digits, List.mem_cons, List.mem_singleton, List.not_mem_nil, or_false] at hc
  rcases hc with h | h
  · rw [h]
    exact digit_mem ⟨b.val / 16, by omega⟩
  · rw [h]
    exact digit_mem ⟨b.val % 16, by omega⟩

theorem length_digits (b : Byte) : (digits b).length = 2 := rfl

theorem encode_loop_false_eq (x : List Byte) :
    encode_loop false x = (x.map digits).flatten := by
  induction x with
  | nil => rfl
  | cons ch rest ih =>
    have h := encode_pair_eq_digits ch
    simp only [encode_loop, Bool.false_eq_true, if_false, List.append_nil, List.map_cons,
      List.flatten_cons, h, ih]

theorem join_with_spaces_cons_cons (a b : List Byte) (l : List (List Byte)) :
    join_with_spaces (a :: b :: l) = a ++ ([chr ' '] ++ join_with_spaces (b :: l)) := by
  simp [join_with_spaces, List.intercalate, List.intersperse]

theorem join_with_spaces_singleton (a : List Byte) : join_with_spaces [a] = a := by
  simp [join_with_spaces, List.intercalate, List.intersperse]

theorem encode_loop_true_eq (ch : Byte) (rest : List Byte) :
    encode_loop true (ch :: rest) = join_with_spaces ((ch :: rest).map digits) ++ [chr ' '] := by
  induction rest generalizing ch with
  | nil =>
    have h := encode_pair_eq_digits ch
    simp only [encode_loop, if_true, List.append_nil, List.map_cons, List.map_nil,
      join_with_spaces_singleton, h]
  | cons c2 rest ih =>
    have h := encode_pair_eq_digits ch
    rw [encode_loop, ih c2]
    simp only [if_true, List.map_cons, join_with_spaces_cons_cons, h, List.append_assoc]

theorem length_join_digits_cons (ch : Byte) (rest : List Byte) :
    (join_with_spaces ((ch :: rest).map digits)).length = 3 * rest.length + 2 := by
  induction rest generalizing ch with
  | nil => simp [join_with_spaces_singleton, length_digits]
  | cons c2 rest ih =>
    have h := ih c2
    simp only [List.map_cons] at h
    simp only [List.map_cons, join_with_spaces_cons_cons, List.length_append, length_digits,
      List.length_cons, List.length_nil, h]
    omega

theorem length_join_digits (x : List Byte) (hx : x ≠ []) :
    (join_with_spaces (x.map digits)).length = 3 * x.length - 1 := by
  match x, hx with
  | ch :: rest, _ =>
    rw [length_join_digits_cons, List.length_cons]
    omega

theorem length_flatten_digits (x : List Byte) : ((x.map digits).flatten).length = 2 * x.length := by
  rw [← encode_loop_false_eq, length_encode_loop_false]

theorem encode_false_eq (x : List Byte) : encode x false = some ((x.map digits).flatten) := by
  simp [encode, encode_loop_false_eq]

theorem encode_true_eq (x : List Byte) (hx : x ≠ []) :
    encode x true = some (join_with_spaces (x.map digits)) := by
  match x, hx with
  | ch :: rest, _ =>
    unfold encode
    simp only [if_true]
    rw [encode_loop_true_eq]
    cases hj : join_with_spaces ((ch :: rest).map digits) ++ [chr ' '] with
    | nil => simp at hj
    | cons a l =>
      simp only [pop_back]
      rw [← hj, List.dropLast_concat]

/-- C15: the string overload `hex::encode(x, delimited)`.  Undelimited, the
output is the two digits of each byte in turn (high nibble first), `2 * len(x)`
characters.  Delimited and for a non-empty `x`, it is those two-digit groups
joined by single spaces, `3 * len(x) - 1` characters, no digit being a space.
Delimited and for the empty `x`, the code pops an empty string: there is no
defined result, where the specification expects the empty string. -/
theorem encode_string_shape (x : List Byte) :
    encode x false = some ((x.map digits).flatten)
      ∧ ((x.map digits).flatten).length = 2 * x.length
      ∧ (x ≠ [] → encode x true = some (join_with_spaces (x.map digits))
          ∧ (join_with_spaces (x.map digits)).length = 3 * x.length - 1)
      ∧ (∀ b ∈ x, ∀ c ∈ digits b, c ∈ hex_alphabet ∧ c ≠ chr ' ')
      ∧ encode [] true = none :=
  ⟨encode_false_eq x, length_flatten_digits x,
    fun hx => ⟨encode_true_eq x hx, length_join_digits x hx⟩,
    fun b _ => digits_mem b, rfl⟩

theorem and_shiftLeft_shiftRight (v m k : Nat) : (v &&& (m <<< k)) >>> k = (v >>> k) &&& m := by
  apply Nat.eq_of_testBit_eq
  intro i
  simp [Nat.testBit_shiftRight, Nat.testBit_and, Nat.testBit_shiftLeft]

theorem and_15 (x : Nat) : x &&& 15 = x % 16 := Nat.and_pow_two_sub_one_eq_mod x 4

theorem high_nibble (v k : Nat) : (v &&& (15 <<< (k + 4))) >>> (k + 4) = v / 2 ^ k % 256 / 16 := by
  rw [and_shiftLeft_shiftRight, and_15, Nat.shiftRight_eq_div_pow, Nat.pow_add,
    ← Nat.div_div_eq_div_mul]
  omega

theorem low_nibble (v k : Nat) : (v &&& (15 <<< k)) >>> k = v / 2 ^ k % 256 % 16 := by
  rw [and_shiftLeft_shiftRight, and_15, Nat.shiftRight_eq_div_pow]
  omega

theorem pair_at (v k k4 hi lo : Nat) (hk : k + 4 = k4) (hhi : 15 <<< k4 = hi)
    (hlo : 15 <<< k = lo) :
    [alphabet_at ((v &&& hi) >>> k4), alphabet_at ((v &&& lo) >>> k)]
      = digits (toByte (v / 2 ^ k)) := by
  subst hk hhi hlo
  rw [high_nibble, low_nibble]
  rfl

theorem pair_low (v : Nat) :
    [alphabet_at ((v &&& 0xF0) >>> 4), alphabet_at (v &&& 0x0F)] = digits (toByte v) := by
  have h := pair_at v 0 4 0xF0 0x0F rfl (by decide) (by decide)
  simpa using h

theorem bytes_msb_first_1 (v : Nat) : bytes_msb_first 1 v = [toByte v] := by
  simp [bytes_msb_first, List.range_succ]

theorem bytes_msb_first_2 (v : Nat) : bytes_msb_first 2 v = [toByte (v / 2 ^ 8), toByte v] := by
  simp [bytes_msb_first, List.range_succ]

theorem bytes_msb_first_4 (v : Nat) :
    bytes_msb_first 4 v
      = [toByte (v / 2 ^ 24), toByte (v / 2 ^ 16), toByte (v / 2 ^ 8), toByte v] := by
  simp [bytes_msb_first, List.range_succ]

theorem bytes_msb_first_8 (v : Nat) :
    bytes_msb_first 8 v
      = [toByte (v / 2 ^ 56), toByte (v / 2 ^ 48), toByte (v / 2 ^ 40), toByte (v / 2 ^ 32),
        toByte (v / 2 ^ 24), toByte (v / 2 ^ 16), toByte (v / 2 ^ 8), toByte v] := by
  simp [bytes_msb_first, List.range_succ]

theorem encode_integral_eq (s v : Nat) (delimited : Bool)
    (hs : s = 1 ∨ s = 2 ∨ s = 4 ∨ s = 8) :
    encode_integral s v delimited
      = if delimited then join_with_spaces ((bytes_msb_first s v).map digits)
        else ((bytes_msb_first s v).map digits).flatten := by
  have e0 := pair_low v
  have e1 := pair_at v 8 12 0xF000 0x0F00 rfl (by decide) (by decide)
  have e2 := pair_at v 16 20 0xF00000 0x0F0000 rfl (by decide) (by decide)
  have e3 := pair_at v 24 28 0xF0000000 0x0F000000 rfl (by decide) (by decide)
  have e4 := pair_at v 32 36 0xF000000000 0x0F00000000 rfl (by decide) (by decide)
  have e5 := pair_at v 40 44 0xF00000000000 0x0F0000000000 rfl (by decide) (by decide)
  have e6 := pair_at v 48 52 0xF0000000000000 0x0F000000000000 rfl (by decide) (by decide)
  have e7 := pair_at v 56 60 0xF000000000000000 0x0F00000000000000 rfl (by decide) (by decide)
  rcases hs with h | h | h | h <;> subst h
  · rw [bytes_msb_first_1]
    simp only [encode_integral, e0, List.map_cons, List.map_nil, join_with_spaces_singleton,
      List.flatten_cons, List.flatten_nil, List.append_nil, ite_self]
  · rw [bytes_msb_first_2]
    simp only [encode_integral, e0, e1, List.map_cons, List.map_nil,
      join_with_spaces_cons_cons, join_with_spaces_singleton,
      List.flatten_cons, List.flatten_nil, List.append_nil, List.append_assoc]
    cases delimited <;> simp
  · rw [bytes_msb_first_4]
    simp only [encode_integral, e0, e1, e2, e3, List.map_cons, List.map_nil,
      join_with_spaces_cons_cons, join_with_spaces_singleton,
      List.flatten_cons, List.flatten_nil, List.append_nil, List.append_assoc]
    cases delimited <;> simp
  · rw [bytes_msb_first_8]
    simp only [encode_integral, e0, e1, e2, e3, e4, e5, e6, e7, List.map_cons, List.map_nil,
      join_with_spaces_cons_cons, join_with_spaces_singleton,
      List.flatten_cons, List.flatten_nil, List.append_nil, List.append_assoc]
    cases delimited <;> simp

theorem bytes_msb_first_ne_nil (s v : Nat) (hs : s = 1 ∨ s = 2 ∨ s = 4 ∨ s = 8) :
    bytes_msb_first s v ≠ [] := by
  intro h
  have hl := congrArg List.length h
  simp [bytes_msb_first] at hl
  omega

/-- C17: for a width of `s` = 1, 2, 4 or 8 bytes, every value `v` and both
delimiter settings, the integral overload `hex::encode(v, delimited)` returns
what the string overload returns, with the same flag, on the bytes of `v`
taken most significant first. -/
theorem encode_integral_refines (s v : Nat) (delimited : Bool)
    (hs : s = 1 ∨ s = 2 ∨ s = 4 ∨ s = 8) :
    encode (bytes_msb_first s v) delimited = some (encode_integral s v delimited) := by
  rw [encode_integral_eq s v delimited hs]
  cases delimited with
  | false => simpa using encode_false_eq (bytes_msb_first s v)
  | true => simpa using encode_true_eq (bytes_msb_first s v) (bytes_msb_first_ne_nil s v hs)

theorem encode_integral_refines_witness :
    encode (bytes_msb_first 4 0xDEADBEEF) true = some (encode_integral 4 0xDEADBEEF true)
      ∧ encode_integral 4 0xDEADBEEF true = str "DE AD BE EF" :=
  ⟨encode_integral_refines 4 0xDEADBEEF true (by decide), by decide⟩

theorem toupper_fixed : ∀ c : Byte, c ≠ chr ' ' →
    hmr.format.toupper (hmr.format.toupper c) = hmr.format.toupper c
      ∧ hmr.format.toupper c ≠ chr ' ' := by
  decide

theorem normalise_idem (s : List Byte) :
    strip_spaces (hmr.format.to_upper (strip_spaces (hmr.format.to_upper s)))
      = strip_spaces (hmr.format.to_upper s) := by
  induction s with
  | nil => rfl
  | cons c rest ih =>
    simp only [strip_spaces, hmr.format.to_upper, List.map_cons] at ih ⊢
    by_cases hc : hmr.format.toupper c = chr ' '
    · simpa [hc] using ih
    · have hsp : c ≠ chr ' ' := by
        intro h
        apply hc
        rw [h]
        decide
      have h2 := toupper_fixed c hsp
      simpa [hc, h2.1] using ih

/-- C18: `hex::decode` is insensitive to letter case and to spaces: for every
string `s`, `decode(s)` is `decode` of `s` upper-cased with every space
removed; so `"4a 4b"` and `"4A4B"` decode to the same bytes. -/
theorem decode_case_space_insensitive (s : List Byte) :
    decode s = decode (strip_spaces (hmr.format.to_upper s))
      ∧ decode (str "4a 4b") = decode (str "4A4B")
      ∧ decode (str "4a 4b") = str "JK" := by
  refine ⟨?_, by decide, by decide⟩
  unfold decode decode_traced
  simp only [normalise_idem]

end hex

/-! ## binary: shape of the output -/

namespace hmr.binary

theorem digits_eq : ∀ b : Byte, digits b = bitset_to_string 8 b.val := by decide

theorem digits_toByte (w : Nat) : digits (toByte w) = bitset_to_string 8 w := by
  rw [digits_eq]
  exact bitset_to_string_mod 8 w

theorem encode_delimited_eq (s v : Nat) (hs : s = 1 ∨ s = 2 ∨ s = 4 ∨ s = 8) :
    encode s v true = join_with_spaces ((bytes_msb_first s v).map digits) := by
  have e7 := byte_string v 56 0xFF00000000000000 (by decide)
  have e6 := byte_string v 48 0xFF000000000000 (by decide)
  have e5 := byte_string v 40 0xFF0000000000 (by decide)
  have e4 := byte_string v 32 0xFF00000000 (by decide)
  have e3 := byte_string v 24 0xFF000000 (by decide)
  have e2 := byte_string v 16 0xFF0000 (by decide)
  have e1 := byte_string v 8 0xFF00 (by decide)
  have e0 := low_byte_string v
  rcases hs with h | h | h | h <;> subst h
  · simp only [hex.bytes_msb_first_1, List.map_cons, List.map_nil, digits_toByte,
      hex.join_with_spaces_singleton, encode, if_true]
  · simp only [hex.bytes_msb_first_2, List.map_cons, List.map_nil, digits_toByte,
      hex.join_with_spaces_cons_cons, hex.join_with_spaces_singleton]
    simp only [encode, if_true, toByte, List.append_assoc, e0, e1]
  · simp only [hex.bytes_msb_first_4, List.map_cons, List.map_nil, digits_toByte,
      hex.join_with_spaces_cons_cons, hex.join_with_spaces_singleton]
    simp only [encode, if_true, toByte, List.append_assoc, e0, e1, e2, e3]
  · simp only [hex.bytes_msb_first_8, List.map_cons, List.map_nil, digits_toByte,
      hex.join_with_spaces_cons_cons, hex.join_with_spaces_singleton]
    simp only [encode, if_true, toByte, List.append_assoc, e0, e1, e2, e3, e4, e5, e6, e7]

theorem encode_undelimited_eq (s v : Nat) (hs : s = 1 ∨ s = 2 ∨ s = 4 ∨ s = 8) :
    encode s v false = ((bytes_msb_first s v).map digits).flatten := by
  rcases hs with h | h | h | h <;> subst h
  · simp only [hex.bytes_msb_first_1, List.map_cons, List.map_nil, digits_toByte,
      List.flatten_cons, List.flatten_nil, List.append_nil, encode, Bool.false_eq_true, if_false]
  · simp only [hex.bytes_msb_first_2, List.map_cons, List.map_nil, digits_toByte,
      List.flatten_cons, List.flatten_nil, List.append_nil, encode, Bool.false_eq_true, if_false]
    exact split_16 v
  · simp only [hex.bytes_msb_first_4, List.map_cons, List.map_nil, digits_toByte,
      List.flatten_cons, List.flatten_nil, List.append_nil, encode, Bool.false_eq_true, if_false]
    exact split_32 v
  · simp only [hex.bytes_msb_first_8, List.map_cons, List.map_nil, digits_toByte,
      List.flatten_cons, List.flatten_nil, List.append_nil, encode, Bool.false_eq_true, if_false]
    exact split_64 v

/-- C16: for a width of `s` = 1, 2, 4 or 8 bytes and every value `v`,
`encode(v, delimited=true)` is the eight binary digits (bit 7 first) of each
byte of `v`, most significant byte first, joined by single spaces, and
`encode(v, delimited=false)` is the same string without the spaces: exactly
`8 * s` characters, each `'0'` or `'1'`. -/
theorem encode_renders_bytes (s v : Nat) (hs : s = 1 ∨ s = 2 ∨ s = 4 ∨ s = 8) :
    encode s v true = join_with_spaces ((bytes_msb_first s v).map digits)
      ∧ encode s v false = ((bytes_msb_first s v).map digits).flatten
      ∧ encode s v false = strip_spaces (encode s v true)
      ∧ (encode s v false).length = 8 * s
      ∧ ∀ c ∈ encode s v false, c = chr '0' ∨ c = chr '1' := by
  refine ⟨encode_delimited_eq s v hs, encode_undelimited_eq s v hs, ?_, ?_, ?_⟩
  · rw [strip_spaces_encode s v true hs]
    simp [encode]
  · simp [encode, length_bitset_to_string, Nat.mul_comm]
  · intro c hc
    simp only [encode, Bool.false_eq_true, if_false] at hc
    exact bitset_to_string_mem _ _ c hc

theorem encode_renders_bytes_witness :
    (encode 2 0x0180 true = join_with_spaces ((bytes_msb_first 2 0x0180).map digits)
      ∧ encode 2 0x0180 false = ((bytes_msb_first 2 0x0180).map digits).flatten
      ∧ encode 2 0x0180 false = strip_spaces (encode 2 0x0180 true)
      ∧ (encode 2 0x0180 false).length = 8 * 2
      ∧ ∀ c ∈ encode 2 0x0180 false, c = chr '0' ∨ c = chr '1')
    ∧ encode 2 0x0180 true = str "00000001 10000000" :=
  ⟨encode_renders_bytes 2 0x0180 (by decide), by decide⟩

end hmr.binary

/-! ## hex and base64: what a caller sees of a malformed input -/

/-- C8, counterexample: the malformed hex input `"4G"` and the well-formed
empty input both come back as the empty string, and so do the malformed base64
input `"A"` and the well-formed `"=="`. -/
theorem malformed_indistinguishable :
    (hex.Malformed (str "4G") ∧ ¬ hex.Malformed (str "")
      ∧ hex.decode (str "4G") = hex.decode (str ""))
    ∧ (base64.Malformed (str "A") ∧ ¬ base64.Malformed (str "==")
      ∧ base64.decode (str "A") = base64.decode (str "==")) := by
  decide

/-- C8, amended: a malformed input of `hex::decode` or `base64::decode` takes a
logged-error exit and comes back as the empty string, while a well-formed one
takes the normal exit; so the two results differ exactly when the well-formed
input decodes to at least one byte. -/
theorem malformed_decodes_to_empty (m v m64 v64 : List Byte)
    (hm : hex.Malformed m) (hv : ¬ hex.Malformed v)
    (hm64 : base64.Malformed m64) (hv64 : ¬ base64.Malformed v64) :
    ((∃ e, hex.decode_traced m = .error e) ∧ hex.decode m = []
      ∧ hex.decode_traced v = .ok (hex.decode v)
      ∧ (hex.decode m ≠ hex.decode v ↔ hex.decode v ≠ []))
    ∧ ((∃ e, base64.decode_traced m64 = .error e) ∧ base64.decode m64 = []
      ∧ base64.decode_traced v64 = .ok (base64.decode v64)
      ∧ (base64.decode m64 ≠ base64.decode v64 ↔ base64.decode v64 ≠ [])) := by
  have h1 := hex.decode_of_malformed m hm
  have h2 : hex.decode_traced v = .ok (hex.decode v) := by
    have ht := hex.decode_traced_of_not_malformed v hv
    simp [hex.decode, ht]
  obtain ⟨e64, he64⟩ := base64.decode_traced_of_truncated_or_invalid m64 hm64
  have h3 : base64.decode m64 = [] := by simp [base64.decode, he64]
  have h4 : base64.decode_traced v64 = .ok (base64.decode v64) := by
    obtain ⟨r, hr⟩ := base64.decode_traced_of_well_formed v64 hv64
    simp [base64.decode, hr]
  refine ⟨⟨hex.decode_traced_of_malformed m hm, h1, h2, ?_⟩, ⟨⟨e64, he64⟩, h3, h4, ?_⟩⟩
  · rw [h1]
    exact ⟨fun h => fun h' => h h'.symm, fun h => fun h' => h h'.symm⟩
  · rw [h3]
    exact ⟨fun h => fun h' => h h'.symm, fun h => fun h' => h h'.symm⟩

theorem malformed_decodes_to_empty_witness :
    ((∃ e, hex.decode_traced (str "4G") = .error e) ∧ hex.decode (str "4G") = []
      ∧ hex.decode_traced (str "41") = .ok (hex.decode (str "41"))
      ∧ (hex.decode (str "4G") ≠ hex.decode (str "41") ↔ hex.decode (str "41") ≠ []))
    ∧ ((∃ e, base64.decode_traced (str "TWFuT") = .error e) ∧ base64.decode (str "TWFuT") = []
      ∧ base64.decode_traced (str "TWFu") = .ok (base64.decode (str "TWFu"))
      ∧ (base64.decode (str "TWFuT") ≠ base64.decode (str "TWFu")
          ↔ base64.decode (str "TWFu") ≠ [])) :=
  malformed_decodes_to_empty (str "4G") (str "41") (str "TWFuT") (str "TWFu")
    (by decide) (by decide) (by decide) (by decide)

/-! ## crypto: blocks, padding, XOR -/

namespace hmr

theorem length_substr (x : List Byte) (pos n : Nat) (h : pos + n ≤ x.length) :
    (substr x pos n).length = n := by
  simp only [substr, List.length_take, List.length_drop]
  omega

theorem substr_append_left (a b : List Byte) (pos n : Nat) (h : pos + n ≤ a.length) :
    substr (a ++ b) pos n = substr a pos n := by
  apply List.ext_getElem?
  intro m
  simp only [substr, List.getElem?_take, List.getElem?_drop]
  by_cases hm : m < n
  · rw [if_pos hm, if_pos hm, List.getElem?_append_left (by omega)]
  · rw [if_neg hm, if_neg hm]

theorem substr_append_right (a b : List Byte) (pos n : Nat) (h : pos = a.length) :
    substr (a ++ b) pos n = b.take n := by
  subst h
  simp [substr]

theorem substr_full (x : List Byte) (pos : Nat) : substr x pos (x.length - pos) = x.drop pos := by
  simp only [substr]
  apply List.take_of_length_le
  simp

theorem take_append_substr (x : List Byte) (k : Nat) :
    x.take (16 * k) ++ substr x (16 * k) 16 = x.take (16 * (k + 1)) := by
  rw [Nat.mul_succ, List.take_add]
  rfl

/-- The concatenation of `n` blocks of 16 bytes, cut back into its blocks. -/
theorem length_flatten_blocks (F : Nat → List Byte) (n : Nat)
    (hF : ∀ j, j < n → (F j).length = 16) :
    (((List.range n).map F).flatten).length = 16 * n := by
  induction n with
  | zero => rfl
  | succ n ih =>
    rw [List.range_succ, List.map_append, List.flatten_append, List.length_append,
      ih (fun j hj => hF j (by omega))]
    simp [hF n (by omega)]
    omega

theorem substr_flatten_blocks (F : Nat → List Byte) (n : Nat)
    (hF : ∀ j, j < n → (F j).length = 16) (j : Nat) (hj : j < n) :
    substr (((List.range n).map F).flatten) (16 * j) 16 = F j := by
  induction n with
  | zero => omega
  | succ n ih =>
    have hlen := length_flatten_blocks F n (fun i hi => hF i (by omega))
    rw [List.range_succ, List.map_append, List.flatten_append]
    by_cases hjn : j < n
    · rw [substr_append_left _ _ _ _ (by omega)]
      exact ih (fun i hi => hF i (by omega)) hjn
    · have hjeq : j = n := by omega
      subst hjeq
      rw [substr_append_right _ _ _ _ (by omega)]
      simp only [List.map_cons, List.map_nil, List.flatten_cons, List.flatten_nil,
        List.append_nil]
      exact List.take_of_length_le (by rw [hF j (by omega)])

theorem flatten_substr_blocks (x : List Byte) (q : Nat) (h : 16 * q ≤ x.length) :
    ((List.range q).map (fun j => substr x (16 * j) 16)).flatten = x.take (16 * q) := by
  induction q with
  | zero => simp
  | succ q ih =>
    rw [List.range_succ, List.map_append, List.flatten_append, ih (by omega)]
    simp only [List.map_cons, List.map_nil, List.flatten_cons, List.flatten_nil, List.append_nil]
    exact take_append_substr x q

namespace pkcs7

theorem length_pad (t : List Byte) (h0 : 0 < t.length) (h16 : t.length < 16) :
    (pad t 16).length = 16 := by
  unfold pad
  simp only [Nat.mod_eq_of_lt h16]
  rw [if_neg (by omega), List.length_append, List.length_replicate]
  omega

theorem unpad_pad (t : List Byte) (h0 : 0 < t.length) (h16 : t.length < 16) :
    unpad (pad t 16) 16 = .ok t := by
  have hN : (toByte (16 - t.length)).val = 16 - t.length := by
    simp only [toByte]
    omega
  have hpad : pad t 16 = t ++ List.replicate (16 - t.length) (toByte (16 - t.length)) := by
    unfold pad
    simp only [Nat.mod_eq_of_lt h16]
    rw [if_neg (by omega)]
  have hlast : (pad t 16).getLast? = some (toByte (16 - t.length)) := by
    rw [hpad, List.getLast?_append, List.getLast?_replicate, if_neg (by omega)]
    rfl
  have hlen : (pad t 16).length = 16 := length_pad t h0 h16
  unfold unpad
  rw [hlast]
  simp only [hN, hlen]
  have hdrop : List.drop (16 - (16 - t.length)) (pad t 16)
      = List.replicate (16 - t.length) (toByte (16 - t.length)) := by
    rw [hpad, show 16 - (16 - t.length) = t.length from by omega]
    exact List.drop_left _ _
  have htake : List.take (16 - (16 - t.length)) (pad t 16) = t := by
    rw [hpad, show 16 - (16 - t.length) = t.length from by omega]
    exact List.take_left _ _
  rw [hdrop, htake, if_pos]
  refine ⟨by omega, by omega, by omega, ?_⟩
  simp [List.all_replicate]

/-- What `unpad` returns is strictly shorter than what it was given. -/
theorem length_unpad_lt (b u : List Byte) (h : unpad b 16 = .ok u) : u.length < b.length := by
  unfold unpad at h
  cases hl : b.getLast? with
  | none => rw [hl] at h; cases h
  | some last =>
    rw [hl] at h
    simp only at h
    split at h
    · rename_i hc
      cases h
      rw [List.length_take]
      omega
    · cases h

end pkcs7

namespace bitwise

theorem length_xor_with_key (a k : List Byte) :
    (xor_with_key a k).length = min a.length k.length := by
  simp [xor_with_key]

theorem xor_byte_cancel (a b : Byte) : toByte ((toByte (a.val ^^^ b.val)).val ^^^ b.val) = a := by
  have ha : a.val < 256 := a.isLt
  have hb : b.val < 256 := b.isLt
  have hx : a.val ^^^ b.val < 256 := Nat.xor_lt_two_pow (n := 8) ha hb
  apply Fin.ext
  simp only [toByte]
  rw [Nat.mod_eq_of_lt hx, Nat.xor_assoc, Nat.xor_self, Nat.xor_zero]
  exact Nat.mod_eq_of_lt ha

theorem xor_with_key_cancel (a k : List Byte) (h : a.length ≤ k.length) :
    xor_with_key (xor_with_key a k) k = a := by
  induction a generalizing k with
  | nil => simp [xor_with_key]
  | cons x a ih =>
    cases k with
    | nil => simp at h
    | cons y k =>
      simp only [xor_with_key, List.zipWith_cons_cons] at ih ⊢
      rw [ih k (by simpa using h), xor_byte_cancel]

end bitwise

end hmr

/-! ## crypto: the loops -/

namespace hmr.crypto

theorem foldlM_range_invariant {σ : Type} (n : Nat) (f : σ → Nat → Except Failure σ) (init : σ)
    (Inv : Nat → σ → Prop) (h0 : Inv 0 init)
    (hstep : ∀ k s, k < n → Inv k s → ∃ s', f s k = .ok s' ∧ Inv (k + 1) s') :
    ∃ s, (List.range n).foldlM f init = .ok s ∧ Inv n s := by
  induction n with
  | zero => exact ⟨init, rfl, h0⟩
  | succ n ih =>
    obtain ⟨s, hs, hinv⟩ := ih (fun k s hk hi => hstep k s (by omega) hi)
    obtain ⟨s', hs', hinv'⟩ := hstep n s (by omega) hinv
    refine ⟨s', ?_, hinv'⟩
    rw [List.range_succ, List.foldlM_append, hs]
    simp only [List.foldlM_cons, List.foldlM_nil]
    show (f s n >>= fun init => pure init) = Except.ok s'
    rw [hs']
    rfl

theorem foldlM_range_succ {σ : Type} (n : Nat) (f : σ → Nat → Except Failure σ) (init s : σ)
    (h : (List.range n).foldlM f init = .ok s) :
    (List.range (n + 1)).foldlM f init = f s n := by
  rw [List.range_succ, List.foldlM_append, h]
  show (f s n >>= fun init => pure init) = f s n
  cases f s n <;> rfl

theorem foldlM_range_error {σ : Type} (n : Nat) (f : σ → Nat → Except Failure σ) (init : σ)
    (e : Failure) (h : f init 0 = .error e) :
    (List.range (n + 1)).foldlM f init = .error e := by
  rw [List.range_succ_eq_map, List.foldlM_cons, h]
  rfl

theorem blocks_in_bound (q : Nat) : (q * 16 + 15) / 16 = q := by omega

theorem aes_ecb_encrypt_block_ok (P : BlockCipher) (b key : List Byte)
    (hb : b.length = 16) (hkey : key.length = 16) :
    aes_ecb_encrypt_block P b key = .ok (P.AES_encrypt b key) := by
  simp [aes_ecb_encrypt_block, hb, hkey]

theorem aes_ecb_decrypt_block_ok (P : BlockCipher) (b key : List Byte)
    (hb : b.length = 16) (hkey : key.length = 16) :
    aes_ecb_decrypt_block P b key = .ok (P.AES_decrypt b key) := by
  simp [aes_ecb_decrypt_block, hb, hkey]

theorem aes_ecb_decrypt_block_bad_key (P : BlockCipher) (b key : List Byte)
    (hkey : key.length ≠ 16) :
    aes_ecb_decrypt_block P b key = .error Failure.contract_violation := by
  unfold aes_ecb_decrypt_block
  split_ifs <;> rfl

end hmr.crypto

namespace hmr.crypto

theorem for_each_offset_error {σ : Type} (bound : Nat) (body : Nat → σ → Except Failure σ)
    (init : σ) (e : Failure) (hb : 0 < bound) (h : body 0 init = .error e) :
    for_each_offset bound body init = .error e := by
  obtain ⟨m, hm⟩ : ∃ m, (bound + 15) / 16 = m + 1 := ⟨(bound + 15) / 16 - 1, by omega⟩
  unfold for_each_offset
  rw [hm]
  exact foldlM_range_error m _ _ e h

theorem aes_ecb_decrypt_bad_key (P : BlockCipher) (x key : List Byte) (remove_padding : Bool)
    (hx : x ≠ []) (hkey : key.length ≠ 16) :
    aes_ecb_decrypt P x key remove_padding = .error Failure.contract_violation := by
  unfold aes_ecb_decrypt
  simp only
  by_cases hlen : x.length % 16 ≠ 0
  · rw [if_pos hlen]
  · rw [if_neg hlen]
    have hpos : 0 < x.length := List.length_pos.2 hx
    rw [for_each_offset_error x.length _ _ Failure.contract_violation hpos]
    simp only [aes_ecb_decrypt_block_bad_key P _ key hkey]

/-- C7: which broken length preconditions the four cipher-mode operations
report.  A key that is not 16 bytes is a contract violation in
`aes_ecb_encrypt`, `aes_cbc_encrypt` and `aes_cbc_decrypt`, and in
`aes_ecb_decrypt` for a non-empty ciphertext; an IV that is not 16 bytes in the
two CBC operations; a ciphertext length that is not a multiple of 16 in the two
decrypt operations.  But `aes_ecb_decrypt`, which has no assertion on the key
of its own, returns the empty string for the empty ciphertext under any key,
a 3-byte one included. -/
theorem contract_violations (P : BlockCipher) (x key iv : List Byte) (remove_padding : Bool) :
    (key.length ≠ 16 →
      aes_ecb_encrypt P x key = .error Failure.contract_violation
        ∧ aes_cbc_encrypt P x key iv = .error Failure.contract_violation
        ∧ aes_cbc_decrypt P x key iv remove_padding = .error Failure.contract_violation
        ∧ (x ≠ [] → aes_ecb_decrypt P x key remove_padding = .error Failure.contract_violation))
    ∧ (iv.length ≠ 16 →
      aes_cbc_encrypt P x key iv = .error Failure.contract_violation
        ∧ aes_cbc_decrypt P x key iv remove_padding = .error Failure.contract_violation)
    ∧ (x.length % 16 ≠ 0 →
      aes_ecb_decrypt P x key remove_padding = .error Failure.contract_violation
        ∧ aes_cbc_decrypt P x key iv remove_padding = .error Failure.contract_violation)
    ∧ aes_ecb_decrypt P [] key remove_padding = .ok []
    ∧ aes_ecb_decrypt P [] (str "abc") true = .ok []
    ∧ aes_ecb_encrypt P [] (str "abc") = .error Failure.contract_violation := by
  refine ⟨?_, ?_, ?_, rfl, rfl, rfl⟩
  · intro hkey
    refine ⟨?_, ?_, ?_, fun hx => aes_ecb_decrypt_bad_key P x key remove_padding hx hkey⟩
    · unfold aes_ecb_encrypt
      rw [if_pos hkey]
    · unfold aes_cbc_encrypt
      rw [if_pos hkey]
    · unfold aes_cbc_decrypt
      simp only
      rw [if_pos hkey]
  · intro hiv
    constructor
    · unfold aes_cbc_encrypt
      split_ifs <;> rfl
    · unfold aes_cbc_decrypt
      simp only
      split_ifs <;> rfl
  · intro hlen
    constructor
    · unfold aes_ecb_decrypt
      simp only
      rw [if_pos hlen]
    · unfold aes_cbc_decrypt
      simp only
      split_ifs <;> rfl

end hmr.crypto

/-! ## crypto: ECB -/

theorem length_plaintext_block (x : List Byte) (j : Nat) (hj : j < (x.length + 15) / 16) :
    (plaintext_block x j).length = 16 := by
  unfold plaintext_block
  split_ifs with h
  · exact hmr.length_substr x _ _ (by omega)
  · apply hmr.pkcs7.length_pad
    · rw [List.length_drop]; omega
    · rw [List.length_drop]; omega

namespace hmr.crypto

theorem ecb_encrypt_loop (P : BlockCipher) (x key : List Byte) (hkey : key.length = 16)
    (body : Nat → List Byte → Except Failure (List Byte))
    (hbody : ∀ offset result, body offset result =
      match aes_ecb_encrypt_block P (substr x offset 16) key with
      | .error e => .error e
      | .ok encrypted_block => .ok (result ++ encrypted_block)) :
    for_each_offset (x.length / 16 * 16) body []
    = .ok (((List.range (x.length / 16)).map
        (fun j => P.AES_encrypt (plaintext_block x j) key)).flatten) := by
  unfold for_each_offset
  rw [blocks_in_bound]
  obtain ⟨s, hs, hinv⟩ := foldlM_range_invariant (x.length / 16)
    (fun result j => body (16 * j) result) []
    (fun k r => k ≤ x.length / 16 ∧
      r = ((List.range k).map (fun j => P.AES_encrypt (plaintext_block x j) key)).flatten)
    ⟨by omega, rfl⟩
    (by
      intro k r hk hinv
      obtain ⟨_, hr⟩ := hinv
      have hb : (substr x (16 * k) 16).length = 16 := length_substr x _ _ (by omega)
      refine ⟨r ++ P.AES_encrypt (substr x (16 * k) 16) key, ?_, by omega, ?_⟩
      · simp only [hbody, aes_ecb_encrypt_block_ok P _ key hb hkey]
      · rw [List.range_succ, List.map_append, List.flatten_append, ← hr]
        simp [plaintext_block, hk])
  rw [hs, hinv.2]

theorem aes_ecb_encrypt_eq (P : BlockCipher) (x key : List Byte) (hkey : key.length = 16) :
    aes_ecb_encrypt P x key = .ok (((List.range ((x.length + 15) / 16)).map
      (fun j => P.AES_encrypt (plaintext_block x j) key)).flatten) := by
  unfold aes_ecb_encrypt
  rw [if_neg (by omega)]
  simp only []
  rw [ecb_encrypt_loop P x key hkey]
  swap
  · exact fun _ _ => rfl
  simp only []
  by_cases hlen : x.length % 16 ≠ 0
  · rw [if_pos hlen]
    have hq : (x.length + 15) / 16 = x.length / 16 + 1 := by omega
    have hfinal : pkcs7.pad (substr x (x.length / 16 * 16) (x.length - x.length / 16 * 16)) 16
        = plaintext_block x (x.length / 16) := by
      rw [substr_full]
      simp [plaintext_block]
    have hb : (plaintext_block x (x.length / 16)).length = 16 :=
      length_plaintext_block x _ (by omega)
    rw [hfinal, aes_ecb_encrypt_block_ok P _ key hb hkey, hq, List.range_succ, List.map_append,
      List.flatten_append]
    simp
  · rw [if_neg hlen]
    have hq : (x.length + 15) / 16 = x.length / 16 := by omega
    rw [hq]

end hmr.crypto

namespace hmr.crypto

theorem ecb_decrypt_loop (P : BlockCipher) (c key : List Byte) (remove_padding : Bool)
    (hkey : key.length = 16) (m : Nat) (hlen : c.length = 16 * (m + 1))
    (body : Nat → Nat × List Byte → Except Failure (Nat × List Byte))
    (hbody : ∀ offset state, body offset state =
      match aes_ecb_decrypt_block P (substr c offset 16) key with
      | .error e => .error e
      | .ok decrypted_block =>
        if state.1 = c.length / 16 then
          if remove_padding then
            match pkcs7.unpad decrypted_block 16 with
            | .error e => .error e
            | .ok unpadded => .ok (state.1 + 1, state.2 ++ unpadded)
          else .ok (state.1 + 1, state.2 ++ decrypted_block)
        else .ok (state.1 + 1, state.2 ++ decrypted_block)) :
    for_each_offset c.length body (1, [])
    = match (if remove_padding then pkcs7.unpad (P.AES_decrypt (substr c (16 * m) 16) key) 16
          else .ok (P.AES_decrypt (substr c (16 * m) 16) key)) with
      | .error e => .error e
      | .ok last => .ok (m + 2, ((List.range m).map
          (fun j => P.AES_decrypt (substr c (16 * j) 16) key)).flatten ++ last) := by
  unfold for_each_offset
  have hn : (c.length + 15) / 16 = m + 1 := by omega
  have hq : c.length / 16 = m + 1 := by omega
  rw [hn]
  obtain ⟨s, hs, hinv⟩ := foldlM_range_invariant m
    (fun state j => body (16 * j) state) (1, [])
    (fun k s => s = (k + 1, ((List.range k).map
      (fun j => P.AES_decrypt (substr c (16 * j) 16) key)).flatten))
    rfl
    (by
      intro k s hk hinv
      subst hinv
      have hb : (substr c (16 * k) 16).length = 16 := length_substr c _ _ (by omega)
      refine ⟨_, ?_, rfl⟩
      simp only [hbody, aes_ecb_decrypt_block_ok P _ key hb hkey, hq]
      rw [if_neg (by omega), List.range_succ, List.map_append, List.flatten_append]
      simp)
  rw [foldlM_range_succ m _ _ s hs, hinv]
  have hb : (substr c (16 * m) 16).length = 16 := length_substr c _ _ (by omega)
  simp only [hbody, aes_ecb_decrypt_block_ok P _ key hb hkey, hq, if_true]
  cases remove_padding with
  | false => simp
  | true =>
    cases pkcs7.unpad (P.AES_decrypt (substr c (16 * m) 16) key) 16 <;> rfl

theorem aes_ecb_decrypt_nil (P : BlockCipher) (key : List Byte) (remove_padding : Bool) :
    aes_ecb_decrypt P [] key remove_padding = .ok [] := rfl

theorem aes_ecb_decrypt_eq (P : BlockCipher) (c key : List Byte) (remove_padding : Bool)
    (hkey : key.length = 16) (m : Nat) (hlen : c.length = 16 * (m + 1)) :
    aes_ecb_decrypt P c key remove_padding
    = (if remove_padding then pkcs7.unpad (P.AES_decrypt (substr c (16 * m) 16) key) 16
        else .ok (P.AES_decrypt (substr c (16 * m) 16) key)).map
      (fun last => ((List.range m).map
        (fun j => P.AES_decrypt (substr c (16 * j) 16) key)).flatten ++ last) := by
  unfold aes_ecb_decrypt
  simp only []
  rw [if_neg (by omega), ecb_decrypt_loop P c key remove_padding hkey m hlen]
  swap
  · exact fun _ _ => rfl
  cases (if remove_padding then pkcs7.unpad (P.AES_decrypt (substr c (16 * m) 16) key) 16
          else Except.ok (P.AES_decrypt (substr c (16 * m) 16) key)) <;> rfl

end hmr.crypto

theorem toyCipher_wellSized : toyCipher.WellSized := by
  intro b k hb hk
  simp [toyCipher, hmr.bitwise.length_xor_with_key, hb, hk]

theorem toyCipher_inverse : toyCipher.Inverse := by
  intro b k hb hk
  simp only [toyCipher]
  rw [hmr.bitwise.xor_with_key_cancel _ _ (by simp [hb, hk]), List.rotate_rotate]
  rw [show 1 + 15 = b.length from by omega]
  exact List.rotate_length b

namespace hmr.crypto

theorem length_encrypted_blocks (P : BlockCipher) (hP : P.WellSized) (x key : List Byte)
    (hkey : key.length = 16) (j : Nat) (hj : j < (x.length + 15) / 16) :
    (P.AES_encrypt (plaintext_block x j) key).length = 16 :=
  (hP _ key (length_plaintext_block x j hj) hkey).1

/-- C19: for a 16-byte key, `aes_ecb_encrypt(x, key)` is the concatenation of
the encrypted blocks of `x`: the `floor(len / 16)` complete blocks in order,
then the encrypted padded tail exactly when `len` is not a multiple of 16
(`ceil(len / 16)` blocks in all).  So block `j` of the ciphertext is the
encryption of block `j` alone, an aligned input gives a ciphertext of its own
length, and equal plaintext blocks give equal ciphertext blocks. -/
theorem aes_ecb_encrypt_blocks (P : BlockCipher) (x key : List Byte)
    (hkey : key.length = 16) (hP : P.WellSized) :
    ∃ c, aes_ecb_encrypt P x key = .ok c
      ∧ c = ((List.range ((x.length + 15) / 16)).map
          (fun j => P.AES_encrypt (plaintext_block x j) key)).flatten
      ∧ (x.length % 16 = 0 →
          c = ((List.range (x.length / 16)).map
            (fun j => P.AES_encrypt (substr x (16 * j) 16) key)).flatten)
      ∧ (x.length % 16 ≠ 0 →
          c = ((List.range (x.length / 16)).map
            (fun j => P.AES_encrypt (substr x (16 * j) 16) key)).flatten
              ++ P.AES_encrypt (pkcs7.pad (x.drop (x.length / 16 * 16)) 16) key)
      ∧ c.length = 16 * ((x.length + 15) / 16)
      ∧ (x.length % 16 = 0 → c.length = x.length)
      ∧ (∀ j, j < (x.length + 15) / 16 →
          substr c (16 * j) 16 = P.AES_encrypt (plaintext_block x j) key)
      ∧ (∀ i j, i < x.length / 16 → j < x.length / 16 →
          substr x (16 * i) 16 = substr x (16 * j) 16 →
          substr c (16 * i) 16 = substr c (16 * j) 16) := by
  have hblocks := length_encrypted_blocks P hP x key hkey
  have hsub := substr_flatten_blocks (fun j => P.AES_encrypt (plaintext_block x j) key)
    ((x.length + 15) / 16) hblocks
  have hcomplete : (List.range (x.length / 16)).map
        (fun j => P.AES_encrypt (plaintext_block x j) key)
      = (List.range (x.length / 16)).map (fun j => P.AES_encrypt (substr x (16 * j) 16) key) := by
    apply List.map_congr_left
    intro j hj
    rw [List.mem_range] at hj
    simp [plaintext_block, hj]
  refine ⟨_, aes_ecb_encrypt_eq P x key hkey, rfl, ?_, ?_, ?_, ?_, hsub, ?_⟩
  · intro h
    rw [show (x.length + 15) / 16 = x.length / 16 from by omega, hcomplete]
  · intro h
    rw [show (x.length + 15) / 16 = x.length / 16 + 1 from by omega, List.range_succ,
      List.map_append, List.flatten_append, hcomplete]
    simp [plaintext_block]
  · exact length_flatten_blocks _ _ hblocks
  · intro h
    rw [length_flatten_blocks _ _ hblocks]
    omega
  · intro i j hi hj hij
    rw [hsub i (by omega), hsub j (by omega)]
    simp only [plaintext_block, if_pos hi, if_pos hj, hij]

theorem aes_ecb_encrypt_blocks_witness :
    ∃ c, aes_ecb_encrypt toyCipher (str "YELLOW SUBMARINE!") key16 = .ok c
      ∧ c = ((List.range (((str "YELLOW SUBMARINE!").length + 15) / 16)).map
          (fun j => toyCipher.AES_encrypt (plaintext_block (str "YELLOW SUBMARINE!") j)
            key16)).flatten
      ∧ c.length = 32 := by
  obtain ⟨c, h1, h2, _, _, h5, _⟩ :=
    aes_ecb_encrypt_blocks toyCipher (str "YELLOW SUBMARINE!") key16 (by decide)
      toyCipher_wellSized
  exact ⟨c, h1, h2, h5⟩

end hmr.crypto

namespace hmr.crypto

theorem flatten_plaintext_blocks (x : List Byte) :
    ((List.range (x.length / 16)).map (plaintext_block x)).flatten = x.take (16 * (x.length / 16)) := by
  rw [← flatten_substr_blocks x (x.length / 16) (by omega)]
  congr 1
  apply List.map_congr_left
  intro j hj
  rw [List.mem_range] at hj
  simp [plaintext_block, hj]

theorem ecb_decrypted_blocks (P : BlockCipher) (hP : P.WellSized) (hI : P.Inverse)
    (x key : List Byte) (hkey : key.length = 16) (m : Nat) (hm : m ≤ (x.length + 15) / 16) :
    (List.range m).map (fun j => P.AES_decrypt (substr
        (((List.range ((x.length + 15) / 16)).map
          (fun j => P.AES_encrypt (plaintext_block x j) key)).flatten) (16 * j) 16) key)
      = (List.range m).map (plaintext_block x) := by
  apply List.map_congr_left
  intro j hj
  rw [List.mem_range] at hj
  rw [substr_flatten_blocks _ _ (length_encrypted_blocks P hP x key hkey) j (by omega)]
  exact hI _ key (length_plaintext_block x j (by omega)) hkey

/-- Unpadding the last plaintext block after the blocks before it gives `x`
back exactly when that block is a padded tail. -/
theorem unpadded_blocks_eq_iff (x : List Byte) (m : Nat) (hm : (x.length + 15) / 16 = m + 1) :
    (pkcs7.unpad (plaintext_block x m) 16).map
        (fun last => ((List.range m).map (plaintext_block x)).flatten ++ last) = .ok x
      ↔ x.length % 16 ≠ 0 := by
  have hblk : (plaintext_block x m).length = 16 := length_plaintext_block x m (by omega)
  have hpre : (((List.range m).map (plaintext_block x)).flatten).length = 16 * m :=
    length_flatten_blocks _ _ (fun j hj => length_plaintext_block x j (by omega))
  by_cases hlen : x.length % 16 ≠ 0
  · -- a padded tail: the last block is unpadded back to the tail
    have hq : m = x.length / 16 := by omega
    subst hq
    have htail : plaintext_block x (x.length / 16)
        = pkcs7.pad (x.drop (16 * (x.length / 16))) 16 := by
      simp [plaintext_block, Nat.mul_comm]
    rw [htail, pkcs7.unpad_pad _ (by rw [List.length_drop]; omega)
      (by rw [List.length_drop]; omega), flatten_plaintext_blocks]
    simp [Except.map, hlen]
  · -- an aligned input: the last block of `x` itself is unpadded
    constructor
    · intro h
      exfalso
      cases hu : pkcs7.unpad (plaintext_block x m) 16 with
      | error e => rw [hu] at h; cases h
      | ok u =>
        rw [hu] at h
        have hlt := pkcs7.length_unpad_lt _ _ hu
        have heq := congrArg List.length (Except.ok.inj h)
        rw [List.length_append, hpre] at heq
        omega
    · intro h
      exact absurd h hlen

/-- C4, amended: for a 16-byte key and a block primitive whose decryption
undoes its encryption, `aes_ecb_decrypt(aes_ecb_encrypt(x, key), key)` with
padding removal returns exactly `x` if and only if `x` is empty or its length
is not a multiple of 16 (so for lengths 0, 15, 17 and 33, and not for 16). -/
theorem ecb_round_trip_iff (P : BlockCipher) (x key : List Byte)
    (hkey : key.length = 16) (hP : P.WellSized) (hI : P.Inverse) :
    ecb_round_trip P x key = .ok x ↔ (x = [] ∨ x.length % 16 ≠ 0) := by
  unfold ecb_round_trip
  rw [aes_ecb_encrypt_eq P x key hkey]
  simp only []
  have hclen := length_flatten_blocks _ _ (length_encrypted_blocks P hP x key hkey)
  by_cases hx : x = []
  · subst hx
    simp [aes_ecb_decrypt_nil]
  have hpos : 0 < x.length := List.length_pos.2 hx
  obtain ⟨m, hm⟩ : ∃ m, (x.length + 15) / 16 = m + 1 := ⟨(x.length + 15) / 16 - 1, by omega⟩
  have hlast := substr_flatten_blocks _ _ (length_encrypted_blocks P hP x key hkey) m (by omega)
  have hdec := ecb_decrypted_blocks P hP hI x key hkey m (by omega)
  rw [aes_ecb_decrypt_eq P _ key true hkey m (by rw [hclen, hm]), hlast, hdec,
    hI _ key (length_plaintext_block x _ (by omega)) hkey, if_pos rfl,
    unpadded_blocks_eq_iff x m hm]
  simp [hx]

theorem ecb_round_trip_iff_witness :
    ecb_round_trip toyCipher (str "YELLOW SUBMARINE!") key16 = .ok (str "YELLOW SUBMARINE!") :=
  (ecb_round_trip_iff toyCipher (str "YELLOW SUBMARINE!") key16 (by decide)
    toyCipher_wellSized toyCipher_inverse).2 (Or.inr (by decide))

end hmr.crypto

/-- C4, counterexample: the 16-byte plaintext of fifteen zero bytes and a one,
under the key `0..15` and a block primitive whose decryption undoes its
encryption, comes back from `aes_ecb_decrypt(aes_ecb_encrypt(x, key), key)` as
the fifteen zero bytes: its last byte was taken for padding. -/
theorem ecb_round_trip_aligned_block :
    toyCipher.Inverse ∧ key16.length = 16 ∧ aligned_block.length = 16
      ∧ ecb_round_trip toyCipher aligned_block key16 = .ok (List.replicate 15 0)
      ∧ ecb_round_trip toyCipher aligned_block key16 ≠ .ok aligned_block :=
  ⟨toyCipher_inverse, by decide, by decide, by decide, by decide⟩

/-! ## crypto: CBC -/

theorem chain_block_append (r e iv : List Byte) (j : Nat) (hj : 16 * j ≤ r.length) :
    chain_block (r ++ e) iv j = chain_block r iv j := by
  unfold chain_block
  split_ifs with h
  · rfl
  · exact hmr.substr_append_left r e _ _ (by omega)

theorem length_chain_block (c iv : List Byte) (j : Nat) (hiv : iv.length = 16)
    (hj : 16 * j ≤ c.length) : (chain_block c iv j).length = 16 := by
  unfold chain_block
  split_ifs with h
  · exact hiv
  · exact hmr.length_substr c _ _ (by omega)

namespace hmr.crypto

theorem cbc_encrypt_loop (P : BlockCipher) (x key iv : List Byte) (hkey : key.length = 16)
    (hiv : iv.length = 16) (hP : P.WellSized)
    (body : Nat → List Byte × List Byte → Except Failure (List Byte × List Byte))
    (hbody : ∀ offset state, body offset state =
      match aes_ecb_encrypt_block P
          (bitwise.xor_with_key (substr x offset 16) state.1) key with
      | .error e => .error e
      | .ok encrypted_block => .ok (encrypted_block, state.2 ++ encrypted_block))
    (loop : Except Failure (List Byte × List Byte))
    (hloop : for_each_offset (x.length / 16 * 16) body (iv, []) = loop) :
    ∃ r, loop = .ok (chain_block r iv (x.length / 16), r)
      ∧ r.length = 16 * (x.length / 16)
      ∧ ∀ j, j < x.length / 16 → substr r (16 * j) 16
          = P.AES_encrypt (bitwise.xor_with_key (substr x (16 * j) 16) (chain_block r iv j)) key := by
  subst hloop
  unfold for_each_offset
  rw [blocks_in_bound]
  obtain ⟨s, hs, hinv⟩ := foldlM_range_invariant (x.length / 16)
    (fun state j => body (16 * j) state) (iv, [])
    (fun k s => k ≤ x.length / 16 ∧ s.1 = chain_block s.2 iv k ∧ s.2.length = 16 * k
      ∧ ∀ j, j < k → substr s.2 (16 * j) 16
          = P.AES_encrypt (bitwise.xor_with_key (substr x (16 * j) 16) (chain_block s.2 iv j)) key)
    ⟨by omega, rfl, rfl, fun j hj => by omega⟩
    (by
      intro k s hk hinv
      obtain ⟨prev, r⟩ := s
      obtain ⟨_, hprev, hlen, hblocks⟩ := hinv
      simp only at hprev hlen hblocks
      have hb : (substr x (16 * k) 16).length = 16 := length_substr x _ _ (by omega)
      have hpl : prev.length = 16 := by
        rw [hprev]
        exact length_chain_block r iv k hiv (by omega)
      have hxl : (bitwise.xor_with_key (substr x (16 * k) 16) prev).length = 16 := by
        rw [bitwise.length_xor_with_key, hb, hpl]
        rfl
      have hel := (hP _ key hxl hkey).1
      refine ⟨(P.AES_encrypt (bitwise.xor_with_key (substr x (16 * k) 16) prev) key,
        r ++ P.AES_encrypt (bitwise.xor_with_key (substr x (16 * k) 16) prev) key), ?_,
        by omega, ?_, ?_, ?_⟩
      · simp only [hbody, aes_ecb_encrypt_block_ok P _ key hxl hkey]
      · simp only [chain_block, Nat.add_sub_cancel]
        rw [if_neg (by omega), substr_append_right _ _ _ _ (by omega)]
        exact (List.take_of_length_le (by omega)).symm
      · simp only [List.length_append, hlen, hel]
        omega
      · intro j hj
        simp only
        rw [chain_block_append _ _ _ _ (by omega)]
        by_cases hjk : j < k
        · rw [substr_append_left _ _ _ _ (by omega)]
          exact hblocks j hjk
        · have hjeq : j = k := by omega
          subst hjeq
          rw [substr_append_right _ _ _ _ (by omega), ← hprev]
          exact List.take_of_length_le (by omega))
  obtain ⟨prev, r⟩ := s
  obtain ⟨_, hprev, hlen, hblocks⟩ := hinv
  simp only at hprev hlen hblocks
  exact ⟨r, by rw [hs, hprev], hlen, hblocks⟩

theorem cbc_encrypt_blocks (P : BlockCipher) (x key iv : List Byte)
    (hkey : key.length = 16) (hiv : iv.length = 16) (hP : P.WellSized) :
    ∃ c, aes_cbc_encrypt P x key iv = .ok c
      ∧ c.length = 16 * ((x.length + 15) / 16)
      ∧ ∀ j, j < (x.length + 15) / 16 → substr c (16 * j) 16
          = P.AES_encrypt
              (bitwise.xor_with_key (plaintext_block x j) (chain_block c iv j)) key := by
  unfold aes_cbc_encrypt
  rw [if_neg (by omega), if_neg (by omega)]
  simp only []
  generalize hL : for_each_offset _ _ _ = loop
  obtain ⟨r, hloop, hlen, hblocks⟩ := cbc_encrypt_loop P x key iv hkey hiv hP _
    (fun _ _ => rfl) loop hL
  subst hloop
  simp only []
  by_cases hmis : x.length % 16 ≠ 0
  · rw [if_pos hmis]
    have hfinal : pkcs7.pad (substr x (x.length / 16 * 16) (x.length - x.length / 16 * 16)) 16
        = plaintext_block x (x.length / 16) := by
      rw [substr_full]
      simp [plaintext_block]
    have hn : (x.length + 15) / 16 = x.length / 16 + 1 := by omega
    have hb : (plaintext_block x (x.length / 16)).length = 16 :=
      length_plaintext_block x _ (by omega)
    have hcl : (chain_block r iv (x.length / 16)).length = 16 :=
      length_chain_block r iv _ hiv (by omega)
    have hxl : (bitwise.xor_with_key (plaintext_block x (x.length / 16))
        (chain_block r iv (x.length / 16))).length = 16 := by
      rw [bitwise.length_xor_with_key, hb, hcl]
      rfl
    have hel := (hP _ key hxl hkey).1
    rw [hfinal, aes_ecb_encrypt_block_ok P _ key hxl hkey]
    refine ⟨_, rfl, ?_, ?_⟩
    · rw [List.length_append, hlen, hel]
      omega
    · intro j hj
      rw [chain_block_append _ _ _ _ (by omega)]
      by_cases hjq : j < x.length / 16
      · rw [substr_append_left _ _ _ _ (by omega), hblocks j hjq]
        simp [plaintext_block, hjq]
      · have hjeq : j = x.length / 16 := by omega
        subst hjeq
        rw [substr_append_right _ _ _ _ (by omega)]
        exact List.take_of_length_le (by omega)
  · rw [if_neg hmis]
    have hn : (x.length + 15) / 16 = x.length / 16 := by omega
    refine ⟨r, rfl, by rw [hlen, hn], ?_⟩
    intro j hj
    rw [hblocks j (by omega)]
    simp [plaintext_block, show j < x.length / 16 from by omega]

/-- C20: for a 16-byte key and a 16-byte IV, the ciphertext of
`aes_cbc_encrypt(x, key, iv)` has `ceil(len / 16)` blocks; its first block is
the encryption of plaintext block 0 XORed with the IV, and its block `j >= 1`
the encryption of plaintext block `j` XORed with ciphertext block `j - 1`.  The
plaintext blocks are the complete 16-byte blocks of `x`, then the padded tail
when `len` is not a multiple of 16. -/
theorem aes_cbc_encrypt_chain (P : BlockCipher) (x key iv : List Byte)
    (hkey : key.length = 16) (hiv : iv.length = 16) (hP : P.WellSized) :
    ∃ c, aes_cbc_encrypt P x key iv = .ok c
      ∧ c.length = 16 * ((x.length + 15) / 16)
      ∧ (x ≠ [] → substr c 0 16
          = P.AES_encrypt (bitwise.xor_with_key (plaintext_block x 0) iv) key)
      ∧ (∀ j, 1 ≤ j → j < (x.length + 15) / 16 → substr c (16 * j) 16
          = P.AES_encrypt
              (bitwise.xor_with_key (plaintext_block x j) (substr c (16 * (j - 1)) 16)) key)
      ∧ (∀ j, j < x.length / 16 → plaintext_block x j = substr x (16 * j) 16)
      ∧ (x.length % 16 ≠ 0 →
          plaintext_block x (x.length / 16) = pkcs7.pad (x.drop (x.length / 16 * 16)) 16) := by
  obtain ⟨c, henc, hlen, hblocks⟩ := cbc_encrypt_blocks P x key iv hkey hiv hP
  refine ⟨c, henc, hlen, ?_, ?_, ?_, ?_⟩
  · intro hx
    have hpos : 0 < x.length := List.length_pos.2 hx
    have h := hblocks 0 (by omega)
    simpa [chain_block] using h
  · intro j hj1 hj
    have h := hblocks j hj
    rw [h]
    simp [chain_block, show j ≠ 0 from by omega]
  · intro j hj
    simp [plaintext_block, hj]
  · intro _
    simp [plaintext_block]

theorem aes_cbc_encrypt_chain_witness :
    ∃ c, aes_cbc_encrypt toyCipher (str "YELLOW SUBMARINE!") key16 key16 = .ok c
      ∧ c.length = 32
      ∧ substr c 0 16 = toyCipher.AES_encrypt
          (bitwise.xor_with_key (str "YELLOW SUBMARINE") key16) key16
      ∧ substr c 16 16 = toyCipher.AES_encrypt (bitwise.xor_with_key
          (pkcs7.pad (str "!") 16) (substr c 0 16)) key16 := by
  obtain ⟨c, h1, h2, h3, h4, h5, h6⟩ :=
    aes_cbc_encrypt_chain toyCipher (str "YELLOW SUBMARINE!") key16 key16 (by decide)
      (by decide) toyCipher_wellSized
  refine ⟨c, h1, h2, ?_, ?_⟩
  · rw [h3 (by decide), h5 0 (by decide)]
    rfl
  · have h := h4 1 (by decide) (by decide)
    have h7 : plaintext_block (str "YELLOW SUBMARINE!") 1 = pkcs7.pad (str "!") 16 :=
      h6 (by decide)
    rw [h7] at h
    exact h

end hmr.crypto

theorem chain_block_succ (c iv : List Byte) (k : Nat) :
    chain_block c iv (k + 1) = hmr.substr c (16 * k) 16 := by
  simp [chain_block]

namespace hmr.crypto

theorem cbc_decrypt_loop (P : BlockCipher) (c key iv : List Byte) (remove_padding : Bool)
    (hkey : key.length = 16) (m : Nat) (hlen : c.length = 16 * (m + 1))
    (body : Nat → Nat × List Byte × List Byte → Except Failure (Nat × List Byte × List Byte))
    (hbody : ∀ offset state, body offset state =
      match aes_ecb_decrypt_block P (substr c offset 16) key with
      | .error e => .error e
      | .ok decrypted_block =>
        if state.1 = c.length / 16 then
          if remove_padding then
            match pkcs7.unpad (bitwise.xor_with_key decrypted_block state.2.1) 16 with
            | .error e => .error e
            | .ok unpadded => .ok (state.1 + 1, substr c offset 16, state.2.2 ++ unpadded)
          else .ok (state.1 + 1, substr c offset 16,
            state.2.2 ++ bitwise.xor_with_key decrypted_block state.2.1)
        else .ok (state.1 + 1, substr c offset 16,
          state.2.2 ++ bitwise.xor_with_key decrypted_block state.2.1)) :
    for_each_offset c.length body (1, iv, [])
    = (if remove_padding then
          pkcs7.unpad (bitwise.xor_with_key (P.AES_decrypt (substr c (16 * m) 16) key)
            (chain_block c iv m)) 16
        else .ok (bitwise.xor_with_key (P.AES_decrypt (substr c (16 * m) 16) key)
            (chain_block c iv m))).map
      (fun last => (m + 2, substr c (16 * m) 16, ((List.range m).map
          (fun j => bitwise.xor_with_key (P.AES_decrypt (substr c (16 * j) 16) key)
            (chain_block c iv j))).flatten ++ last)) := by
  unfold for_each_offset
  have hn : (c.length + 15) / 16 = m + 1 := by omega
  have hq : c.length / 16 = m + 1 := by omega
  rw [hn]
  obtain ⟨s, hs, hinv⟩ := foldlM_range_invariant m
    (fun state j => body (16 * j) state) (1, iv, [])
    (fun k s => s = (k + 1, chain_block c iv k, ((List.range k).map
      (fun j => bitwise.xor_with_key (P.AES_decrypt (substr c (16 * j) 16) key)
        (chain_block c iv j))).flatten))
    rfl
    (by
      intro k s hk hinv
      subst hinv
      have hb : (substr c (16 * k) 16).length = 16 := length_substr c _ _ (by omega)
      refine ⟨_, ?_, rfl⟩
      simp only [hbody, aes_ecb_decrypt_block_ok P _ key hb hkey, hq]
      rw [if_neg (by omega), List.range_succ, List.map_append, List.flatten_append,
        chain_block_succ]
      simp)
  rw [foldlM_range_succ m _ _ s hs, hinv]
  have hb : (substr c (16 * m) 16).length = 16 := length_substr c _ _ (by omega)
  simp only [hbody, aes_ecb_decrypt_block_ok P _ key hb hkey, hq, if_true]
  cases remove_padding with
  | false => simp [Except.map]
  | true =>
    cases pkcs7.unpad (bitwise.xor_with_key (P.AES_decrypt (substr c (16 * m) 16) key)
      (chain_block c iv m)) 16 <;> rfl

theorem aes_cbc_decrypt_nil (P : BlockCipher) (key iv : List Byte) (remove_padding : Bool)
    (hkey : key.length = 16) (hiv : iv.length = 16) :
    aes_cbc_decrypt P [] key iv remove_padding = .ok [] := by
  unfold aes_cbc_decrypt
  simp only []
  rw [if_neg (by omega), if_neg (by omega)]
  rfl

theorem aes_cbc_decrypt_eq (P : BlockCipher) (c key iv : List Byte) (remove_padding : Bool)
    (hkey : key.length = 16) (hiv : iv.length = 16) (m : Nat) (hlen : c.length = 16 * (m + 1)) :
    aes_cbc_decrypt P c key iv remove_padding
    = (if remove_padding then
          pkcs7.unpad (bitwise.xor_with_key (P.AES_decrypt (substr c (16 * m) 16) key)
            (chain_block c iv m)) 16
        else .ok (bitwise.xor_with_key (P.AES_decrypt (substr c (16 * m) 16) key)
            (chain_block c iv m))).map
      (fun last => ((List.range m).map
          (fun j => bitwise.xor_with_key (P.AES_decrypt (substr c (16 * j) 16) key)
            (chain_block c iv j))).flatten ++ last) := by
  unfold aes_cbc_decrypt
  simp only []
  rw [if_neg (by omega), if_neg (by omega), if_neg (by omega),
    cbc_decrypt_loop P c key iv remove_padding hkey m hlen]
  swap
  · exact fun _ _ => rfl
  cases (if remove_padding then
          pkcs7.unpad (bitwise.xor_with_key (P.AES_decrypt (substr c (16 * m) 16) key)
            (chain_block c iv m)) 16
        else Except.ok (bitwise.xor_with_key (P.AES_decrypt (substr c (16 * m) 16) key)
            (chain_block c iv m))) <;> rfl

/-- C5, amended: for a 16-byte key, a 16-byte IV and a block primitive whose
decryption undoes its encryption, `aes_cbc_decrypt(aes_cbc_encrypt(x, key, iv),
key, iv)` with padding removal returns exactly `x` if and only if `x` is empty
or its length is not a multiple of 16 (so for lengths 0, 15, 17 and 33, and
not for 16). -/
theorem cbc_round_trip_iff (P : BlockCipher) (x key iv : List Byte)
    (hkey : key.length = 16) (hiv : iv.length = 16) (hP : P.WellSized) (hI : P.Inverse) :
    cbc_round_trip P x key iv = .ok x ↔ (x = [] ∨ x.length % 16 ≠ 0) := by
  unfold cbc_round_trip
  obtain ⟨c, henc, hclen, hblocks⟩ := cbc_encrypt_blocks P x key iv hkey hiv hP
  rw [henc]
  simp only []
  by_cases hx : x = []
  · subst hx
    have hc : c = [] := List.eq_nil_of_length_eq_zero (by simpa using hclen)
    subst hc
    simp [aes_cbc_decrypt_nil P key iv true hkey hiv]
  have hpos : 0 < x.length := List.length_pos.2 hx
  obtain ⟨m, hm⟩ : ∃ m, (x.length + 15) / 16 = m + 1 := ⟨(x.length + 15) / 16 - 1, by omega⟩
  have hdblk : ∀ j, j < m + 1 →
      bitwise.xor_with_key (P.AES_decrypt (substr c (16 * j) 16) key) (chain_block c iv j)
        = plaintext_block x j := by
    intro j hj
    have hpl := length_plaintext_block x j (by omega)
    have hcl := length_chain_block c iv j hiv (by omega)
    have hxl : (bitwise.xor_with_key (plaintext_block x j) (chain_block c iv j)).length = 16 := by
      rw [bitwise.length_xor_with_key, hpl, hcl]
      rfl
    rw [hblocks j (by omega), hI _ key hxl hkey, bitwise.xor_with_key_cancel _ _ (by omega)]
  have hdec : (List.range m).map (fun j => bitwise.xor_with_key
        (P.AES_decrypt (substr c (16 * j) 16) key) (chain_block c iv j))
      = (List.range m).map (plaintext_block x) := by
    apply List.map_congr_left
    intro j hj
    rw [List.mem_range] at hj
    exact hdblk j (by omega)
  rw [aes_cbc_decrypt_eq P c key iv true hkey hiv m (by rw [hclen, hm]), hdec,
    hdblk m (by omega), if_pos rfl, unpadded_blocks_eq_iff x m hm]
  simp [hx]

theorem cbc_round_trip_iff_witness :
    cbc_round_trip toyCipher (str "YELLOW SUBMARINE!") key16 key16
      = .ok (str "YELLOW SUBMARINE!") :=
  (cbc_round_trip_iff toyCipher (str "YELLOW SUBMARINE!") key16 key16 (by decide) (by decide)
    toyCipher_wellSized toyCipher_inverse).2 (Or.inr (by decide))

end hmr.crypto

/-- C5, counterexample: the 16-byte plaintext of fifteen zero bytes and a one,
under the key `0..15`, the all-zero IV and a block primitive whose decryption
undoes its encryption, comes back from `aes_cbc_decrypt(aes_cbc_encrypt(x, key,
iv), key, iv)` as the fifteen zero bytes: its last byte was taken for
padding. -/
theorem cbc_round_trip_aligned_block :
    toyCipher.Inverse ∧ key16.length = 16 ∧ (List.replicate 16 (0 : Byte)).length = 16
      ∧ aligned_block.length = 16
      ∧ cbc_round_trip toyCipher aligned_block key16 (List.replicate 16 0)
          = .ok (List.replicate 15 0)
      ∧ cbc_round_trip toyCipher aligned_block key16 (List.replicate 16 0)
          ≠ .ok aligned_block :=
  ⟨toyCipher_inverse, by decide, by decide, by decide, by decide, by decide⟩

/-! ## crypto: a flipped ciphertext bit in CBC -/

theorem getElem?_substr (x : List Byte) (pos n k : Nat) :
    (hmr.substr x pos n)[k]? = if k < n then x[pos + k]? else none := by
  simp only [hmr.substr, List.getElem?_take, List.getElem?_drop]

theorem substr_modify_inside (g : Byte → Byte) (x : List Byte) (pos n t : Nat) :
    hmr.substr (x.modify g (pos + t)) pos n = (hmr.substr x pos n).modify g t := by
  apply List.ext_getElem?
  intro k
  rw [getElem?_substr, List.getElem?_modify, List.getElem?_modify, getElem?_substr]
  by_cases hk : k < n
  · rw [if_pos hk, if_pos hk]
    by_cases htk : t = k
    · subst htk
      simp
    · have h1 : ¬ pos + t = pos + k := by omega
      simp [htk, h1]
  · rw [if_neg hk, if_neg hk]
    rfl

theorem substr_modify_outside (g : Byte → Byte) (x : List Byte) (pos n t : Nat)
    (ht : t < pos ∨ pos + n ≤ t) :
    hmr.substr (x.modify g t) pos n = hmr.substr x pos n := by
  apply List.ext_getElem?
  intro k
  rw [getElem?_substr, List.getElem?_modify, getElem?_substr]
  by_cases hk : k < n
  · rw [if_pos hk, if_pos hk]
    have h1 : ¬ t = pos + k := by omega
    simp [h1]
  · rw [if_neg hk, if_neg hk]

theorem flip_bit_block (c : List Byte) (i b : Nat) :
    hmr.substr (flip_bit c (128 * i + b)) (16 * i) 16 = flip_bit (hmr.substr c (16 * i) 16) b := by
  unfold flip_bit
  rw [show (128 * i + b) / 8 = 16 * i + b / 8 from by omega,
    show (128 * i + b) % 8 = b % 8 from by omega]
  exact substr_modify_inside _ c (16 * i) 16 (b / 8)

theorem flip_bit_other_block (c : List Byte) (i j b : Nat) (hb : b < 128) (hj : j ≠ i) :
    hmr.substr (flip_bit c (128 * i + b)) (16 * j) 16 = hmr.substr c (16 * j) 16 := by
  unfold flip_bit
  exact substr_modify_outside _ c (16 * j) 16 _ (by omega)

theorem length_flip_bit (s : List Byte) (b : Nat) : (flip_bit s b).length = s.length := by
  simp [flip_bit, List.length_modify]

theorem xor_mask_comm (a p : Byte) (k : Nat) (hk : k < 8) :
    toByte (a.val ^^^ (toByte (p.val ^^^ (1 <<< k))).val)
      = toByte ((toByte (a.val ^^^ p.val)).val ^^^ (1 <<< k)) := by
  have ha : a.val < 256 := a.isLt
  have hp : p.val < 256 := p.isLt
  have hm : 1 <<< k < 256 := by
    have : k = 0 ∨ k = 1 ∨ k = 2 ∨ k = 3 ∨ k = 4 ∨ k = 5 ∨ k = 6 ∨ k = 7 := by omega
    rcases this with h | h | h | h | h | h | h | h <;> subst h <;> decide
  have h1 : p.val ^^^ (1 <<< k) < 256 := Nat.xor_lt_two_pow (n := 8) hp hm
  have h2 : a.val ^^^ p.val < 256 := Nat.xor_lt_two_pow (n := 8) ha hp
  apply Fin.ext
  simp only [toByte]
  rw [Nat.mod_eq_of_lt h1, Nat.mod_eq_of_lt h2, Nat.xor_assoc]

theorem xor_with_key_flip_bit (d prev : List Byte) (b : Nat) :
    hmr.bitwise.xor_with_key d (flip_bit prev b)
      = flip_bit (hmr.bitwise.xor_with_key d prev) b := by
  apply List.ext_getElem?
  intro k
  simp only [hmr.bitwise.xor_with_key, flip_bit, List.getElem?_zipWith, List.getElem?_modify]
  cases hd : d[k]? with
  | none => simp
  | some a =>
    cases hp : prev[k]? with
    | none => simp
    | some p =>
      by_cases hbk : b / 8 = k
      · simp [hbk, xor_mask_comm a p (b % 8) (by omega)]
      · simp [hbk]

theorem flip_mask_ne : ∀ v : Byte, ∀ k : Fin 8, toByte (v.val ^^^ (1 <<< k.val)) ≠ v := by
  decide

theorem flip_bit_ne (s : List Byte) (b : Nat) (hb : b / 8 < s.length) : flip_bit s b ≠ s := by
  intro h
  have h1 := congrArg (fun l => l[b / 8]?) h
  simp only [flip_bit, List.getElem?_modify, List.getElem?_eq_getElem hb] at h1
  simp only [Option.map_eq_map, Option.map_some', if_true, Option.some.injEq] at h1
  exact flip_mask_ne _ ⟨b % 8, by omega⟩ h1

namespace hmr.crypto

theorem aes_cbc_decrypt_blocks (P : BlockCipher) (c key iv : List Byte)
    (hkey : key.length = 16) (hiv : iv.length = 16) (n : Nat) (hlen : c.length = 16 * n) :
    aes_cbc_decrypt P c key iv false
      = .ok (((List.range n).map
          (fun j => bitwise.xor_with_key (P.AES_decrypt (substr c (16 * j) 16) key)
            (chain_block c iv j))).flatten) := by
  cases n with
  | zero =>
    have hc : c = [] := List.eq_nil_of_length_eq_zero (by simpa using hlen)
    subst hc
    exact aes_cbc_decrypt_nil P key iv false hkey hiv
  | succ m =>
    rw [aes_cbc_decrypt_eq P c key iv false hkey hiv m hlen, List.range_succ, List.map_append,
      List.flatten_append]
    simp [Except.map]

theorem length_decrypted_block (P : BlockCipher) (hP : P.WellSized) (c key iv : List Byte)
    (hkey : key.length = 16) (hiv : iv.length = 16) (n : Nat) (hlen : c.length = 16 * n)
    (j : Nat) (hj : j < n) :
    (bitwise.xor_with_key (P.AES_decrypt (substr c (16 * j) 16) key)
      (chain_block c iv j)).length = 16 := by
  have hb : (substr c (16 * j) 16).length = 16 := length_substr c _ _ (by omega)
  rw [bitwise.length_xor_with_key, (hP _ key hb hkey).2,
    length_chain_block c iv j hiv (by omega)]
  rfl

/-- C6: CBC bit-flip propagation.  For a 16-byte key and IV, a ciphertext `c`
of `n` blocks, a block index `i` with `i + 1 < n` and a bit position `b` of the
block, let `c'` be `c` with bit `b` of block `i` flipped.  Decrypting without
padding removal succeeds on both; block `i + 1` of the result for `c'` is
block `i + 1` of the result for `c` with bit `b` flipped (so it differs from
it), and every block other than `i` and `i + 1` is the same. -/
theorem cbc_bit_flip (P : BlockCipher) (c key iv : List Byte) (n i b : Nat)
    (hkey : key.length = 16) (hiv : iv.length = 16) (hP : P.WellSized)
    (hlen : c.length = 16 * n) (hi : i + 1 < n) (hb : b < 128) :
    ∃ p p', aes_cbc_decrypt P c key iv false = .ok p
      ∧ aes_cbc_decrypt P (flip_bit c (128 * i + b)) key iv false = .ok p'
      ∧ p.length = 16 * n ∧ p'.length = 16 * n
      ∧ substr p' (16 * (i + 1)) 16 = flip_bit (substr p (16 * (i + 1)) 16) b
      ∧ substr p' (16 * (i + 1)) 16 ≠ substr p (16 * (i + 1)) 16
      ∧ ∀ j, j < n → j ≠ i → j ≠ i + 1 → substr p' (16 * j) 16 = substr p (16 * j) 16 := by
  have hlen' : (flip_bit c (128 * i + b)).length = 16 * n := by rw [length_flip_bit, hlen]
  have hbl := length_decrypted_block P hP c key iv hkey hiv n hlen
  have hbl' := length_decrypted_block P hP (flip_bit c (128 * i + b)) key iv hkey hiv n hlen'
  have hsub := substr_flatten_blocks _ n hbl
  have hsub' := substr_flatten_blocks _ n hbl'
  refine ⟨_, _, aes_cbc_decrypt_blocks P c key iv hkey hiv n hlen,
    aes_cbc_decrypt_blocks P _ key iv hkey hiv n hlen',
    length_flatten_blocks _ n hbl, length_flatten_blocks _ n hbl', ?_, ?_, ?_⟩
  · rw [hsub' (i + 1) (by omega), hsub (i + 1) (by omega),
      flip_bit_other_block c i (i + 1) b hb (by omega), chain_block_succ, chain_block_succ,
      flip_bit_block, xor_with_key_flip_bit]
  · rw [hsub' (i + 1) (by omega), hsub (i + 1) (by omega),
      flip_bit_other_block c i (i + 1) b hb (by omega), chain_block_succ, chain_block_succ,
      flip_bit_block, xor_with_key_flip_bit]
    apply flip_bit_ne
    have h16 := hbl (i + 1) (by omega)
    rw [chain_block_succ] at h16
    rw [h16]
    omega
  · intro j hj hji hji1
    rw [hsub' j hj, hsub j hj, flip_bit_other_block c i j b hb hji]
    have hchain : chain_block (flip_bit c (128 * i + b)) iv j = chain_block c iv j := by
      unfold chain_block
      split_ifs with h0
      · rfl
      · exact flip_bit_other_block c i (j - 1) b hb (by omega)
    rw [hchain]

theorem cbc_bit_flip_witness :
    ∃ p p', aes_cbc_decrypt toyCipher (str "YELLOW SUBMARINEyellow submarineYELLOW SUBMARINE")
          key16 key16 false = .ok p
      ∧ aes_cbc_decrypt toyCipher
          (flip_bit (str "YELLOW SUBMARINEyellow submarineYELLOW SUBMARINE") (128 * 1 + 5))
          key16 key16 false = .ok p'
      ∧ p.length = 16 * 3 ∧ p'.length = 16 * 3
      ∧ substr p' (16 * (1 + 1)) 16 = flip_bit (substr p (16 * (1 + 1)) 16) 5
      ∧ substr p' (16 * (1 + 1)) 16 ≠ substr p (16 * (1 + 1)) 16
      ∧ ∀ j, j < 3 → j ≠ 1 → j ≠ 1 + 1 → substr p' (16 * j) 16 = substr p (16 * j) 16 :=
  cbc_bit_flip toyCipher (str "YELLOW SUBMARINEyellow submarineYELLOW SUBMARINE") key16 key16
    3 1 5 (by decide) (by decide) toyCipher_wellSized (by decide) (by decide) (by decide)

end hmr.crypto

/-! ## crypto: padding removal, the default IV, the block calls -/

namespace hmr.crypto

theorem aes_ecb_decrypt_blocks (P : BlockCipher) (c key : List Byte)
    (hkey : key.length = 16) (n : Nat) (hlen : c.length = 16 * n) :
    aes_ecb_decrypt P c key false
      = .ok (((List.range n).map
          (fun j => P.AES_decrypt (substr c (16 * j) 16) key)).flatten) := by
  cases n with
  | zero =>
    have hc : c = [] := List.eq_nil_of_length_eq_zero (by simpa using hlen)
    subst hc
    rfl
  | succ m =>
    rw [aes_ecb_decrypt_eq P c key false hkey m hlen, List.range_succ, List.map_append,
      List.flatten_append]
    simp [Except.map]

theorem take_flatten_blocks (F : Nat → List Byte) (m : Nat)
    (hF : ∀ j, j < m + 1 → (F j).length = 16) :
    (((List.range (m + 1)).map F).flatten).take (16 * m) = ((List.range m).map F).flatten := by
  have hl := length_flatten_blocks F m (fun j hj => hF j (by omega))
  rw [List.range_succ, List.map_append, List.flatten_append,
    List.take_append_of_le_length (by omega)]
  exact List.take_of_length_le (by omega)

theorem unpad_not_contract_violation (b : List Byte) :
    pkcs7.unpad b 16 ≠ .error Failure.contract_violation := by
  unfold pkcs7.unpad
  cases b.getLast? with
  | none => simp
  | some last =>
    simp only
    split_ifs <;> simp

theorem aes_cbc_decrypt_bad_size (P : BlockCipher) (c key iv : List Byte)
    (remove_padding : Bool) (h : key.length ≠ 16 ∨ iv.length ≠ 16) :
    aes_cbc_decrypt P c key iv remove_padding = .error Failure.contract_violation := by
  unfold aes_cbc_decrypt
  simp only []
  rcases h with h | h
  · rw [if_pos h]
  · split_ifs <;> rfl

/-- The decrypted blocks with the last one unpadded, from the decrypted
blocks. -/
theorem unpad_last_of_blocks (F : Nat → List Byte) (m : Nat)
    (hF : ∀ j, j < m + 1 → (F j).length = 16) :
    (pkcs7.unpad (F m) 16).map (fun last => ((List.range m).map F).flatten ++ last)
      = (pkcs7.unpad (substr (((List.range (m + 1)).map F).flatten) (16 * m) 16) 16).map
          (fun u => (((List.range (m + 1)).map F).flatten).take (16 * m) ++ u) := by
  rw [substr_flatten_blocks F (m + 1) hF m (by omega), take_flatten_blocks F m hF]

/-- C21: padding removal touches only the last block.  For a ciphertext `c` of
`m + 1` blocks, `aes_ecb_decrypt(c, key, true)` is
`aes_ecb_decrypt(c, key, false)` with its last block replaced by the `unpad` of
that block (and fails where `unpad` fails), and likewise for
`aes_cbc_decrypt`; with `remove_padding = false`, and a key and IV of 16
bytes, the output has the length of `c`. -/
theorem unpadding_touches_last_block (P : BlockCipher) (c key iv : List Byte) (m : Nat)
    (hP : P.WellSized) (hlen : c.length = 16 * (m + 1)) :
    aes_ecb_decrypt P c key true
        = (aes_ecb_decrypt P c key false).bind (fun p =>
            (pkcs7.unpad (substr p (16 * m) 16) 16).map (fun u => p.take (16 * m) ++ u))
      ∧ aes_cbc_decrypt P c key iv true
        = (aes_cbc_decrypt P c key iv false).bind (fun p =>
            (pkcs7.unpad (substr p (16 * m) 16) 16).map (fun u => p.take (16 * m) ++ u))
      ∧ (key.length = 16 → ∃ p, aes_ecb_decrypt P c key false = .ok p ∧ p.length = c.length)
      ∧ (key.length = 16 → iv.length = 16 →
          ∃ p, aes_cbc_decrypt P c key iv false = .ok p ∧ p.length = c.length) := by
  have hne : c ≠ [] := by
    intro h
    rw [h] at hlen
    simp at hlen
  have hblk : ∀ j, j < m + 1 → (substr c (16 * j) 16).length = 16 :=
    fun j hj => length_substr c _ _ (by omega)
  refine ⟨?_, ?_, ?_, ?_⟩
  · by_cases hkey : key.length = 16
    · have hF : ∀ j, j < m + 1 → (P.AES_decrypt (substr c (16 * j) 16) key).length = 16 :=
        fun j hj => (hP _ key (hblk j hj) hkey).2
      rw [aes_ecb_decrypt_eq P c key true hkey m hlen,
        aes_ecb_decrypt_blocks P c key hkey (m + 1) hlen, if_pos rfl]
      exact unpad_last_of_blocks _ m hF
    · rw [aes_ecb_decrypt_bad_key P c key true hne hkey,
        aes_ecb_decrypt_bad_key P c key false hne hkey]
      rfl
  · by_cases hsize : key.length = 16 ∧ iv.length = 16
    · obtain ⟨hkey, hiv⟩ := hsize
      have hF := length_decrypted_block P hP c key iv hkey hiv (m + 1) hlen
      rw [aes_cbc_decrypt_eq P c key iv true hkey hiv m hlen,
        aes_cbc_decrypt_blocks P c key iv hkey hiv (m + 1) hlen, if_pos rfl]
      exact unpad_last_of_blocks _ m hF
    · have hbad : key.length ≠ 16 ∨ iv.length ≠ 16 := by
        by_contra h
        push_neg at h
        exact hsize h
      rw [aes_cbc_decrypt_bad_size P c key iv true hbad,
        aes_cbc_decrypt_bad_size P c key iv false hbad]
      rfl
  · intro hkey
    have hF : ∀ j, j < m + 1 → (P.AES_decrypt (substr c (16 * j) 16) key).length = 16 :=
      fun j hj => (hP _ key (hblk j hj) hkey).2
    exact ⟨_, aes_ecb_decrypt_blocks P c key hkey (m + 1) hlen, by
      rw [length_flatten_blocks _ _ hF, hlen]⟩
  · intro hkey hiv
    have hF := length_decrypted_block P hP c key iv hkey hiv (m + 1) hlen
    exact ⟨_, aes_cbc_decrypt_blocks P c key iv hkey hiv (m + 1) hlen, by
      rw [length_flatten_blocks _ _ hF, hlen]⟩

theorem unpadding_touches_last_block_witness :
    aes_cbc_decrypt toyCipher (str "YELLOW SUBMARINEyellow submarine") key16 key16 true
      = (aes_cbc_decrypt toyCipher (str "YELLOW SUBMARINEyellow submarine") key16 key16
          false).bind (fun p =>
            (pkcs7.unpad (substr p (16 * 1) 16) 16).map (fun u => p.take (16 * 1) ++ u)) :=
  (unpadding_touches_last_block toyCipher (str "YELLOW SUBMARINEyellow submarine") key16 key16
    1 toyCipher_wellSized (by decide)).2.1

end hmr.crypto

namespace hmr.bitwise

theorem xor_with_zeros (p : List Byte) (n : Nat) (h : p.length ≤ n) :
    xor_with_key p (List.replicate n 0) = p := by
  induction p generalizing n with
  | nil => simp [xor_with_key]
  | cons a p ih =>
    cases n with
    | zero => simp at h
    | succ n =>
      have ha : toByte (a.val ^^^ (0 : Byte).val) = a := by
        apply Fin.ext
        simp only [toByte]
        have : a.val < 256 := a.isLt
        simp [Nat.mod_eq_of_lt this]
      simp only [xor_with_key, List.replicate_succ, List.zipWith_cons_cons] at ih ⊢
      rw [ih n (by simpa using h), ha]

end hmr.bitwise

namespace hmr.crypto

theorem substr_zero (l : List Byte) (n : Nat) : substr l 0 n = l.take n := by
  simp [substr]

/-- C22: with no IV supplied, `aes_cbc_encrypt` runs with the all-zero 16-byte
vector of its declaration.  For a 16-byte key both `aes_cbc_encrypt(x, key)`
and `aes_ecb_encrypt(x, key)` return a ciphertext; for a non-empty `x` the two
agree on their first 16 bytes, and for an `x` of at most 16 bytes they are
equal. -/
theorem cbc_default_iv_first_block (P : BlockCipher) (x key : List Byte)
    (hkey : key.length = 16) (hP : P.WellSized) :
    default_iv = List.replicate 16 0
      ∧ ∃ c e, aes_cbc_encrypt P x key default_iv = .ok c ∧ aes_ecb_encrypt P x key = .ok e
        ∧ (x ≠ [] → c.take 16 = e.take 16) ∧ (x.length ≤ 16 → c = e) := by
  refine ⟨rfl, ?_⟩
  have hiv : default_iv.length = 16 := rfl
  obtain ⟨c, henc, hclen, hblocks⟩ := cbc_encrypt_blocks P x key default_iv hkey hiv hP
  have hel := length_flatten_blocks _ _ (length_encrypted_blocks P hP x key hkey)
  have hfirst : x ≠ [] → c.take 16
      = (((List.range ((x.length + 15) / 16)).map
          (fun j => P.AES_encrypt (plaintext_block x j) key)).flatten).take 16 := by
    intro hx
    have hpos : 0 < x.length := List.length_pos.2 hx
    have h0 : 0 < (x.length + 15) / 16 := by omega
    have hc := hblocks 0 h0
    have he := substr_flatten_blocks _ _ (length_encrypted_blocks P hP x key hkey) 0 h0
    rw [Nat.mul_zero, substr_zero] at hc he
    rw [hc, he]
    have hz : chain_block c default_iv 0 = List.replicate 16 0 := rfl
    rw [hz, bitwise.xor_with_zeros _ 16 (by rw [length_plaintext_block x 0 h0])]
  refine ⟨c, _, henc, aes_ecb_encrypt_eq P x key hkey, hfirst, ?_⟩
  intro hle
  by_cases hx : x = []
  · subst hx
    have hc : c = [] := List.eq_nil_of_length_eq_zero (by simpa using hclen)
    subst hc
    rfl
  · have h1 := hfirst hx
    have hn : (x.length + 15) / 16 ≤ 1 := by omega
    rw [List.take_of_length_le (by rw [hclen]; omega),
      List.take_of_length_le (by rw [hel]; omega)] at h1
    exact h1

theorem cbc_default_iv_first_block_witness :
    default_iv = List.replicate 16 0
      ∧ ∃ c e, aes_cbc_encrypt toyCipher (str "YELLOW SUBMARINE!") key16 default_iv = .ok c
        ∧ aes_ecb_encrypt toyCipher (str "YELLOW SUBMARINE!") key16 = .ok e
        ∧ (str "YELLOW SUBMARINE!" ≠ [] → c.take 16 = e.take 16)
        ∧ ((str "YELLOW SUBMARINE!").length ≤ 16 → c = e) :=
  cbc_default_iv_first_block toyCipher (str "YELLOW SUBMARINE!") key16 (by decide)
    toyCipher_wellSized

theorem aes_ecb_encrypt_block_error_iff (P : BlockCipher) (b k : List Byte) :
    aes_ecb_encrypt_block P b k = .error Failure.contract_violation
      ↔ ¬ (b.length = 16 ∧ k.length = 16) := by
  unfold aes_ecb_encrypt_block
  split_ifs with h1 h2
  · simp [h1]
  · simp [h2]
  · simp only [ne_eq, not_not] at h1 h2
    simp [h1, h2]

theorem aes_ecb_decrypt_block_error_iff (P : BlockCipher) (b k : List Byte) :
    aes_ecb_decrypt_block P b k = .error Failure.contract_violation
      ↔ ¬ (b.length = 16 ∧ k.length = 16) := by
  unfold aes_ecb_decrypt_block
  split_ifs with h1 h2
  · simp [h1]
  · simp [h2]
  · simp only [ne_eq, not_not] at h1 h2
    simp [h1, h2]

theorem map_ne_contract_violation {α β : Type} (r : Except Failure α) (f : α → β)
    (h : r ≠ .error Failure.contract_violation) :
    r.map f ≠ .error Failure.contract_violation := by
  cases r with
  | error e =>
    intro h2
    apply h
    simpa [Except.map] using h2
  | ok a => simp [Except.map]

/-- C23: under the preconditions (a key and an IV of 16 bytes, a ciphertext
whose length is a multiple of 16, block functions that return 16-byte blocks),
no call of a mode operation to `aes_ecb_encrypt_block` or
`aes_ecb_decrypt_block` fails a size assertion.  A block function reports a
contract violation exactly when its input or its key is not 16 bytes, and the
first failing call ends the operation with that report; the two encrypt
operations return a ciphertext and the two decrypt operations never end in a
contract violation.  The arguments at the call sites are 16 bytes long: the
complete blocks and the padded tail (XORed with the chain block in CBC), and
the ciphertext blocks. -/
theorem block_calls_well_sized (P : BlockCipher) (x c key iv : List Byte)
    (remove_padding : Bool) (hkey : key.length = 16) (hiv : iv.length = 16)
    (hP : P.WellSized) (hc : c.length % 16 = 0) :
    (∀ b k, aes_ecb_encrypt_block P b k = .error Failure.contract_violation
        ↔ ¬ (b.length = 16 ∧ k.length = 16))
      ∧ (∀ b k, aes_ecb_decrypt_block P b k = .error Failure.contract_violation
        ↔ ¬ (b.length = 16 ∧ k.length = 16))
      ∧ (∃ r, aes_ecb_encrypt P x key = .ok r)
      ∧ (∃ r, aes_cbc_encrypt P x key iv = .ok r
          ∧ ∀ j, j < (x.length + 15) / 16 →
            (bitwise.xor_with_key (plaintext_block x j) (chain_block r iv j)).length = 16)
      ∧ aes_ecb_decrypt P c key remove_padding ≠ .error Failure.contract_violation
      ∧ aes_cbc_decrypt P c key iv remove_padding ≠ .error Failure.contract_violation
      ∧ (∀ j, j < (x.length + 15) / 16 → (plaintext_block x j).length = 16)
      ∧ (∀ j, j < c.length / 16 → (substr c (16 * j) 16).length = 16) := by
  refine ⟨aes_ecb_encrypt_block_error_iff P, aes_ecb_decrypt_block_error_iff P,
    ⟨_, aes_ecb_encrypt_eq P x key hkey⟩, ?_, ?_, ?_,
    fun j hj => length_plaintext_block x j hj,
    fun j hj => length_substr c _ _ (by omega)⟩
  · obtain ⟨r, henc, hrlen, _⟩ := cbc_encrypt_blocks P x key iv hkey hiv hP
    refine ⟨r, henc, ?_⟩
    intro j hj
    rw [bitwise.length_xor_with_key, length_plaintext_block x j hj,
      length_chain_block r iv j hiv (by omega)]
    rfl
  · obtain ⟨n, hn⟩ : ∃ n, c.length = 16 * n := ⟨c.length / 16, by omega⟩
    cases n with
    | zero =>
      have hnil : c = [] := List.eq_nil_of_length_eq_zero (by simpa using hn)
      subst hnil
      simp [aes_ecb_decrypt_nil]
    | succ m =>
      rw [aes_ecb_decrypt_eq P c key remove_padding hkey m hn]
      apply map_ne_contract_violation
      cases remove_padding with
      | false => simp
      | true => simpa using unpad_not_contract_violation _
  · obtain ⟨n, hn⟩ : ∃ n, c.length = 16 * n := ⟨c.length / 16, by omega⟩
    cases n with
    | zero =>
      have hnil : c = [] := List.eq_nil_of_length_eq_zero (by simpa using hn)
      subst hnil
      simp [aes_cbc_decrypt_nil P key iv remove_padding hkey hiv]
    | succ m =>
      rw [aes_cbc_decrypt_eq P c key iv remove_padding hkey hiv m hn]
      apply map_ne_contract_violation
      cases remove_padding with
      | false => simp
      | true => simpa using unpad_not_contract_violation _

theorem block_calls_well_sized_witness :
    (∃ r, aes_ecb_encrypt toyCipher (str "YELLOW SUBMARINE!") key16 = .ok r)
      ∧ aes_cbc_decrypt toyCipher (str "YELLOW SUBMARINEyellow submarine") key16 key16 true
          ≠ .error Failure.contract_violation := by
  have h := block_calls_well_sized toyCipher (str "YELLOW SUBMARINE!")
    (str "YELLOW SUBMARINEyellow submarine") key16 key16 true (by decide) (by decide)
    toyCipher_wellSized (by decide)
  exact ⟨h.2.2.1, h.2.2.2.2.2.1⟩

end hmr.crypto

/-! ## base64: unpadded input, data after the padding -/

namespace base64

theorem length_decode_loop_ok (s output : List Byte) (h : s.length % 4 ≠ 1) :
    ∃ r, decode_loop s output = .ok r ∧ r.length = output.length + 3 * s.length / 4 := by
  induction s, output using decode_loop.induct with
  | case1 output => exact ⟨output, by simp [decode_loop]⟩
  | case2 c output => simp at h
  | case3 ca cb output => exact ⟨_, rfl, by simp⟩
  | case4 ca cb cc output => exact ⟨_, rfl, by simp⟩
  | case5 ca cb cc cd rest output a b c d n d1 d2 d3 ih =>
    rw [decode_loop]
    obtain ⟨r, hr, hl⟩ := ih (by simp only [List.length_cons] at h; omega)
    refine ⟨r, hr, ?_⟩
    rw [hl]
    simp only [List.length_append, List.length_cons, List.length_nil]
    omega

theorem takeWhile_of_alphabet (s : List Byte) (hs : ∀ c ∈ s, c ∈ base64_alphabet) :
    s.takeWhile (fun c => c ≠ chr '=') = s := by
  rw [List.takeWhile_eq_self_iff]
  intro c hc
  simpa using alphabet_ne_pad c (hs c hc)

theorem takeWhile_before_pad (s t : List Byte) (hs : ∀ c ∈ s, c ∈ base64_alphabet) :
    (s ++ str "=" ++ t).takeWhile (fun c => c ≠ chr '=') = s := by
  induction s with
  | nil =>
    have h : (str "=" ++ t) = chr '=' :: t := rfl
    simp [h]
  | cons a s ih =>
    have ha : a ≠ chr '=' := alphabet_ne_pad a (hs a (List.mem_cons_self _ _))
    have ih2 := ih (fun c hc => hs c (List.mem_cons_of_mem _ hc))
    simp only [List.cons_append, List.append_assoc] at ih2 ⊢
    rw [List.takeWhile_cons_of_pos (by simpa using ha), ih2]

theorem find_first_not_of_valid (s : List Byte)
    (hs : ∀ c ∈ s, c ∈ base64_alphabet ++ str "=") :
    find_first_not_of s (base64_alphabet ++ str "=") = none := by
  rw [find_first_not_of_eq_none_iff]
  exact hs

/-- C24: for a string `s` of `k >= 2` characters of the base64 alphabet (no
`=`) with `k mod 4 != 1`, `base64::decode(s)` takes its normal exit and returns
exactly `floor(3 * k / 4)` bytes: three for each complete group of four
characters, then two for a tail of three characters or one for a tail of
two. -/
theorem decode_unpadded (s : List Byte) (hk : 2 ≤ s.length)
    (hs : ∀ c ∈ s, c ∈ base64_alphabet) (hmod : s.length % 4 ≠ 1) :
    decode_traced s = .ok (decode s)
      ∧ (decode s).length = 3 * s.length / 4
      ∧ (decode s).length = 3 * (s.length / 4)
          + (if s.length % 4 = 3 then 2 else if s.length % 4 = 2 then 1 else 0) := by
  obtain ⟨r, hr, hl⟩ := length_decode_loop_ok s [] hmod
  have ht : decode_traced s = .ok r := by
    unfold decode_traced
    simp only []
    rw [if_neg (by omega), find_first_not_of_valid s
      (fun c hc => List.mem_append_left _ (hs c hc)), takeWhile_of_alphabet s hs]
    exact hr
  have hd : decode s = r := by simp [decode, ht]
  rw [hd]
  refine ⟨ht, by simpa using hl, ?_⟩
  simp only [List.length_nil, Nat.zero_add] at hl
  rw [hl]
  split_ifs <;> omega

theorem decode_unpadded_witness :
    decode_traced (str "TWFuTWE") = .ok (decode (str "TWFuTWE"))
      ∧ (decode (str "TWFuTWE")).length = 3 * (str "TWFuTWE").length / 4
      ∧ (decode (str "TWFuTWE")).length = 3 * ((str "TWFuTWE").length / 4)
          + (if (str "TWFuTWE").length % 4 = 3 then 2
              else if (str "TWFuTWE").length % 4 = 2 then 1 else 0) :=
  decode_unpadded (str "TWFuTWE") (by decide) (by decide) (by decide)

/-- C25: `base64::decode` ignores everything from the first `=` onward: for
`s` over the 64-character alphabet and `t` over that alphabet and `=`,
`decode(s + "=" + t) == decode(s)`; when `s` has at least two characters the
two calls take the same exit, so what follows the `=` is dropped, not
rejected. -/
theorem decode_ignores_after_pad (s t : List Byte)
    (hs : ∀ c ∈ s, c ∈ base64_alphabet) (ht : ∀ c ∈ t, c ∈ base64_alphabet ++ str "=") :
    decode (s ++ str "=" ++ t) = decode s
      ∧ (2 ≤ s.length → decode_traced (s ++ str "=" ++ t) = decode_traced s) := by
  have hvalid : find_first_not_of (s ++ str "=" ++ t) (base64_alphabet ++ str "=") = none := by
    apply find_first_not_of_valid
    intro c hc
    simp only [List.mem_append] at hc
    rcases hc with (h | h) | h
    · exact List.mem_append_left _ (hs c h)
    · exact List.mem_append_right _ h
    · exact ht c h
  have hlen : (s ++ str "=" ++ t).length = s.length + 1 + t.length := by
    simp only [List.length_append, show (str "=").length = 1 from rfl]
  have hlong : 2 ≤ s.length → decode_traced (s ++ str "=" ++ t) = decode_traced s := by
    intro h2
    unfold decode_traced
    simp only []
    rw [if_neg (by omega), if_neg (by omega), hvalid,
      find_first_not_of_valid s (fun c hc => List.mem_append_left _ (hs c hc)),
      takeWhile_before_pad s t hs, takeWhile_of_alphabet s hs]
  refine ⟨?_, hlong⟩
  by_cases h2 : 2 ≤ s.length
  · simp only [decode, hlong h2]
  · have hshort : decode s = [] := by
      simp [decode, decode_traced, show s.length < 2 from by omega]
    rw [hshort]
    by_cases hin : (s ++ str "=" ++ t).length < 2
    · have htr : decode_traced (s ++ str "=" ++ t) = .error Failure.too_short := by
        unfold decode_traced
        simp only []
        rw [if_pos hin]
      simp only [decode, htr]
    · have htr : decode_traced (s ++ str "=" ++ t) = decode_loop s [] := by
        unfold decode_traced
        simp only []
        rw [if_neg hin, hvalid, takeWhile_before_pad s t hs]
      have hloop : decode_loop s [] = .ok [] ∨ decode_loop s [] = .error Failure.one_byte_left := by
        match s, h2 with
        | [], _ => exact Or.inl rfl
        | [a], _ => exact Or.inr rfl
        | _ :: _ :: _, h2 => simp at h2
      rcases hloop with h | h
      · simp only [decode, htr, h]
      · simp only [decode, htr, h]

theorem decode_ignores_after_pad_witness :
    decode (str "TWFu" ++ str "=" ++ str "QUJD") = decode (str "TWFu")
      ∧ decode (str "TWFu") = str "Man"
      ∧ decode_traced (str "TWFu" ++ str "=" ++ str "QUJD") = decode_traced (str "TWFu") :=
  ⟨(decode_ignores_after_pad (str "TWFu") (str "QUJD") (by decide) (by decide)).1, by decide,
    (decode_ignores_after_pad (str "TWFu") (str "QUJD") (by decide) (by decide)).2 (by decide)⟩

end base64

/-! ## format: escape and unescape -/

theorem utils_hex_encode_decode : ∀ b : Byte,
    hex.decode [hex.alphabet_at ((b.val &&& 0xF0) >>> 4), hex.alphabet_at (b.val &&& 0x0F)] = [b]
      ∧ printable (hex.alphabet_at ((b.val &&& 0xF0) >>> 4))
      ∧ printable (hex.alphabet_at (b.val &&& 0x0F)) := by
  decide

theorem utils_hex_roundTrip : utils_hex.RoundTrip := by
  intro b
  have h := utils_hex_encode_decode b
  exact ⟨hex.alphabet_at ((b.val &&& 0xF0) >>> 4), hex.alphabet_at (b.val &&& 0x0F), rfl,
    h.1, h.2.1, h.2.2⟩

namespace hmr.format

theorem foldl_append_pieces (f : Byte → List Byte) (l : List Byte) (init : List Byte) :
    l.foldl (fun output c => output ++ f c) init = init ++ (l.map f).flatten := by
  induction l generalizing init with
  | nil => simp
  | cons c l ih => simp [List.foldl_cons, ih, List.append_assoc]

theorem escape_cons (H : HexHelpers) (ch : Byte) (rest : List Byte) :
    escape H (ch :: rest) = escape_char H ch ++ escape H rest := by
  simp [escape, foldl_append_pieces]

theorem escape_nil (H : HexHelpers) : escape H [] = [] := rfl

theorem unescape_loop_escape_char (H : HexHelpers) (hH : H.RoundTrip) (ch : Byte)
    (rest output : List Byte) :
    unescape_loop H (escape_char H ch ++ rest) output = unescape_loop H rest (output ++ [ch]) := by
  by_cases h1 : ch.val = 0x0A
  · have hc : ch = 0x0A := Fin.ext h1
    have hpiece : escape_char H ch = [0x5C, chr 'n'] := by simp [escape_char, h1]
    rw [hpiece, hc]
    show unescape_loop H (0x5C :: chr 'n' :: rest) output = _
    rw [unescape_loop.eq_def]
    rfl
  by_cases h2 : ch.val = 0x0D
  · have hc : ch = 0x0D := Fin.ext h2
    have hpiece : escape_char H ch = [0x5C, chr 'r'] := by simp [escape_char, h1, h2]
    rw [hpiece, hc]
    show unescape_loop H (0x5C :: chr 'r' :: rest) output = _
    rw [unescape_loop.eq_def]
    rfl
  by_cases h3 : ch.val = 0x5C
  · have hc : ch = 0x5C := Fin.ext h3
    have hpiece : escape_char H ch = [0x5C, 0x5C] := by simp [escape_char, h1, h2, h3]
    rw [hpiece, hc]
    show unescape_loop H (0x5C :: 0x5C :: rest) output = _
    rw [unescape_loop.eq_def]
    rfl
  by_cases h4 : ch.val ≤ 0x1F ∨ ch.val ≥ 0x7F
  · obtain ⟨d1, d2, henc, hdec, _, _⟩ := hH ch
    have hpiece : escape_char H ch = [0x5C, chr 'x', d1, d2] := by
      simp [escape_char, h1, h2, h3, h4, henc]
    rw [hpiece]
    show unescape_loop H (0x5C :: chr 'x' :: d1 :: d2 :: rest) output = _
    rw [unescape_loop.eq_def]
    show unescape_loop H rest (output ++ H.decode [d1, d2]) = _
    rw [hdec]
  · have hpiece : escape_char H ch = [ch] := by
      simp [escape_char, h1, h2, h3, h4]
    rw [hpiece]
    show unescape_loop H (ch :: rest) output = _
    rw [unescape_loop.eq_def]
    simp only [h3, if_false]

theorem unescape_loop_escape (H : HexHelpers) (hH : H.RoundTrip) (x output : List Byte) :
    unescape_loop H (escape H x) output = .ok (output ++ x) := by
  induction x generalizing output with
  | nil => simp [escape_nil, unescape_loop]
  | cons ch rest ih =>
    rw [escape_cons, unescape_loop_escape_char H hH, ih]
    simp

theorem escape_char_printable (H : HexHelpers) (hH : H.RoundTrip) (ch : Byte) :
    ∀ c ∈ escape_char H ch, printable c := by
  intro c hc
  by_cases h1 : ch.val = 0x0A
  · have hpiece : escape_char H ch = [0x5C, chr 'n'] := by simp [escape_char, h1]
    rw [hpiece] at hc
    simp only [List.mem_cons, List.mem_singleton, List.not_mem_nil, or_false] at hc
    rcases hc with h | h <;> subst h <;> decide
  by_cases h2 : ch.val = 0x0D
  · have hpiece : escape_char H ch = [0x5C, chr 'r'] := by simp [escape_char, h1, h2]
    rw [hpiece] at hc
    simp only [List.mem_cons, List.mem_singleton, List.not_mem_nil, or_false] at hc
    rcases hc with h | h <;> subst h <;> decide
  by_cases h3 : ch.val = 0x5C
  · have hpiece : escape_char H ch = [0x5C, 0x5C] := by simp [escape_char, h1, h2, h3]
    rw [hpiece] at hc
    simp only [List.mem_cons, List.mem_singleton, List.not_mem_nil, or_false] at hc
    rcases hc with h | h <;> subst h <;> decide
  by_cases h4 : ch.val ≤ 0x1F ∨ ch.val ≥ 0x7F
  · obtain ⟨d1, d2, henc, _, hp1, hp2⟩ := hH ch
    have hpiece : escape_char H ch = [0x5C, chr 'x', d1, d2] := by
      simp [escape_char, h1, h2, h3, h4, henc]
    rw [hpiece] at hc
    simp only [List.mem_cons, List.mem_singleton, List.not_mem_nil, or_false] at hc
    rcases hc with h | h | h | h
    · subst h; decide
    · subst h; decide
    · subst h; exact hp1
    · subst h; exact hp2
  · have hpiece : escape_char H ch = [ch] := by
      simp [escape_char, h1, h2, h3, h4]
    rw [hpiece] at hc
    simp only [List.mem_singleton] at hc
    subst hc
    unfold printable
    omega

/-- C26: for every byte sequence `x`, `unescape(escape(x))` returns `x`, with
no `need_more_data`, and every character of `escape(x)` is a printable ASCII
character (`0x20` to `0x7E`); for any hex helpers that write a byte as two
printable characters and read them back as that byte. -/
theorem unescape_escape (H : HexHelpers) (x : List Byte) (hH : H.RoundTrip) :
    unescape H (escape H x) = .ok x ∧ ∀ c ∈ escape H x, printable c := by
  constructor
  · unfold unescape
    rw [unescape_loop_escape H hH]
    rfl
  · induction x with
    | nil => simp [escape_nil]
    | cons ch rest ih =>
      intro c hc
      rw [escape_cons, List.mem_append] at hc
      rcases hc with h | h
      · exact escape_char_printable H hH ch c h
      · exact ih c h

theorem unescape_escape_witness :
    (unescape utils_hex (escape utils_hex [0x00, 0x41, 0x5C, 0x0A, 0x0D, 0x7F, 0xFF])
        = .ok [0x00, 0x41, 0x5C, 0x0A, 0x0D, 0x7F, 0xFF]
      ∧ ∀ c ∈ escape utils_hex [0x00, 0x41, 0x5C, 0x0A, 0x0D, 0x7F, 0xFF], printable c)
    ∧ escape utils_hex [0x00, 0x41, 0x5C, 0x0A, 0x0D, 0x7F, 0xFF]
        = [0x5C, chr 'x', chr '0', chr '0', chr 'A', 0x5C, 0x5C, 0x5C, chr 'n', 0x5C, chr 'r',
            0x5C, chr 'x', chr '7', chr 'F', 0x5C, chr 'x', chr 'F', chr 'F'] :=
  ⟨unescape_escape utils_hex [0x00, 0x41, 0x5C, 0x0A, 0x0D, 0x7F, 0xFF] utils_hex_roundTrip,
    by decide⟩

end hmr.format

/-! ## format: split -/

theorem splitOnP_of_no_separator (p : Byte → Bool) (xs : List Byte)
    (h : ∀ x ∈ xs, ¬ p x = true) : List.splitOnP p xs = [xs] := by
  induction xs with
  | nil => rfl
  | cons x xs ih =>
    rw [List.splitOnP_cons, if_neg (h x (List.mem_cons_self _ _)),
      ih (fun y hy => h y (List.mem_cons_of_mem _ hy))]
    rfl

theorem runs_nil (d : Byte) : runs [] d = [] := by
  simp [runs]

theorem takeWhile_dropWhile_split (p : Byte → Bool) (l : List Byte) :
    l.take (l.takeWhile p).length = l.takeWhile p
      ∧ l.drop (l.takeWhile p).length = l.dropWhile p := by
  obtain ⟨a, b, hab, ha, hb⟩ : ∃ a b, a ++ b = l ∧ l.takeWhile p = a ∧ l.dropWhile p = b :=
    ⟨_, _, List.takeWhile_append_dropWhile p l, rfl, rfl⟩
  rw [ha, hb, ← hab]
  exact ⟨List.take_left _ _, List.drop_left _ _⟩

theorem take_length_takeWhile (p : Byte → Bool) (l : List Byte) :
    l.take (l.takeWhile p).length = l.takeWhile p := (takeWhile_dropWhile_split p l).1

theorem drop_length_takeWhile (p : Byte → Bool) (l : List Byte) :
    l.drop (l.takeWhile p).length = l.dropWhile p := (takeWhile_dropWhile_split p l).2

/-- The runs of `l`: its first run, when not empty, then the runs of what
follows the first delimiter. -/
theorem runs_step (l : List Byte) (d : Byte) :
    runs l d
      = (if l.takeWhile (fun c => c ≠ d) ≠ [] then [l.takeWhile (fun c => c ≠ d)] else [])
        ++ runs (l.drop ((l.takeWhile (fun c => c ≠ d)).length + 1)) d := by
  have hseg : ∀ x ∈ l.takeWhile (fun c => c ≠ d), ¬ (x == d) = true := by
    intro x hx
    have := List.mem_takeWhile_imp hx
    simpa using this
  have hdrop : l.drop ((l.takeWhile (fun c => c ≠ d)).length + 1)
      = (l.dropWhile (fun c => c ≠ d)).tail := by
    rw [← List.drop_drop, drop_length_takeWhile, List.drop_one]
  rw [hdrop]
  cases hdw : l.dropWhile (fun c => c ≠ d) with
  | nil =>
    have hl : l.takeWhile (fun c => c ≠ d) = l := by
      have := List.takeWhile_append_dropWhile (fun c => c ≠ d) l
      rw [hdw, List.append_nil] at this
      exact this
    rw [hl] at hseg ⊢
    simp only [List.tail_nil, runs_nil, List.append_nil]
    unfold runs List.splitOn
    rw [splitOnP_of_no_separator _ l hseg]
    by_cases hne : l = []
    · simp [hne]
    · simp [hne]
  | cons x after =>
    have hx : x = d := by
      have h := List.head_dropWhile_not (fun c => c ≠ d) l (by rw [hdw]; simp)
      simp only [hdw, List.head_cons] at h
      simpa using h
    subst hx
    have hl : l = l.takeWhile (fun c => c ≠ x) ++ x :: after := by
      have := List.takeWhile_append_dropWhile (fun c => c ≠ x) l
      rw [hdw] at this
      exact this.symm
    simp only [List.tail_cons]
    conv_lhs => rw [hl]
    unfold runs List.splitOn
    rw [List.splitOnP_first _ _ hseg x (by simp)]
    generalize l.takeWhile (fun c => c ≠ x) = seg
    by_cases hne : seg = []
    · subst hne
      simp
    · simp [hne]

theorem length_drop_succ_lt (l : List Byte) (k : Nat) (h : l ≠ []) :
    (l.drop (k + 1)).length < l.length := by
  have := List.length_pos.2 h
  rw [List.length_drop]
  omega

theorem runs_segments (d : Byte) (n : Nat) :
    ∀ l : List Byte, l.length ≤ n →
      (∀ segment ∈ runs l d, segment ≠ [] ∧ d ∉ segment)
        ∧ (runs l d).flatten = l.filter (fun c => c ≠ d) := by
  induction n with
  | zero =>
    intro l hl
    have : l = [] := List.eq_nil_of_length_eq_zero (by omega)
    subst this
    simp [runs_nil]
  | succ n ih =>
    intro l hl
    by_cases hnil : l = []
    · subst hnil
      simp [runs_nil]
    have hrec := ih (l.drop ((l.takeWhile (fun c => c ≠ d)).length + 1)) (by
      have := length_drop_succ_lt l (l.takeWhile (fun c => c ≠ d)).length hnil
      omega)
    have hnot : d ∉ l.takeWhile (fun c => c ≠ d) := by
      intro hmem
      have := List.mem_takeWhile_imp hmem
      simp at this
    have hfilter : l.filter (fun c => c ≠ d)
        = l.takeWhile (fun c => c ≠ d)
          ++ (l.drop ((l.takeWhile (fun c => c ≠ d)).length + 1)).filter (fun c => c ≠ d) := by
      have hsplit := List.takeWhile_append_dropWhile (fun c => c ≠ d) l
      have hdrop : l.drop ((l.takeWhile (fun c => c ≠ d)).length + 1)
          = (l.dropWhile (fun c => c ≠ d)).tail := by
        rw [← List.drop_drop, drop_length_takeWhile, List.drop_one]
      have hkeep : (l.takeWhile (fun c => c ≠ d)).filter (fun c => c ≠ d)
          = l.takeWhile (fun c => c ≠ d) := by
        rw [List.filter_eq_self]
        intro a ha
        have hp := List.mem_takeWhile_imp ha
        simpa using hp
      rw [hdrop]
      conv_lhs => rw [← hsplit]
      rw [List.filter_append, hkeep]
      congr 1
      cases hdw : l.dropWhile (fun c => c ≠ d) with
      | nil => rfl
      | cons x after =>
        have hx : x = d := by
          have h := List.head_dropWhile_not (fun c => c ≠ d) l (by rw [hdw]; simp)
          simp only [hdw, List.head_cons] at h
          simpa using h
        subst hx
        simp
    rw [runs_step l d, hfilter]
    generalize l.takeWhile (fun c => c ≠ d) = seg at hnot hrec ⊢
    constructor
    · intro segment hmem
      rw [List.mem_append] at hmem
      rcases hmem with h | h
      · by_cases hne : seg = []
        · simp [hne] at h
        · simp only [hne, ne_eq, not_false_eq_true, if_true, List.mem_singleton] at h
          subst h
          exact ⟨hne, hnot⟩
      · exact hrec.1 segment h
    · rw [List.flatten_append, hrec.2]
      by_cases hne : seg = []
      · simp [hne]
      · simp [hne]

namespace hmr.format

theorem split_loop_eq (s : List Byte) (d : Byte) (fuel : Nat) :
    ∀ first second segments, second ≤ first → 0 < fuel → s.length < first + fuel →
      split_loop s d fuel first second segments = some (segments ++ runs (s.drop first) d) := by
  induction fuel with
  | zero => intro _ _ _ _ h; omega
  | succ fuel ih =>
    intro first second segments hle _ hfuel
    rw [split_loop]
    simp only []
    by_cases hfirst : first < s.length
    · rw [if_pos ⟨by omega, hfirst⟩]
      rw [ih _ _ _ (by omega) (by omega) (by unfold find_from; omega)]
      rw [runs_step (s.drop first) d]
      have hseg : substr s first (find_from s first d - first)
          = (s.drop first).takeWhile (fun c => c ≠ d) := by
        unfold find_from substr
        rw [Nat.add_sub_cancel_left]
        exact take_length_takeWhile _ _
      have hnext : s.drop (find_from s first d + 1)
          = (s.drop first).drop (((s.drop first).takeWhile (fun c => c ≠ d)).length + 1) := by
        unfold find_from
        rw [List.drop_drop, Nat.add_assoc]
      have hcond : first ≠ find_from s first d
          ↔ (s.drop first).takeWhile (fun c => c ≠ d) ≠ [] := by
        unfold find_from
        rw [Ne, Ne, ← List.length_eq_zero]
        omega
      rw [hseg, hnext]
      by_cases hne : (s.drop first).takeWhile (fun c => c ≠ d) = []
      · rw [if_neg (by rw [hcond]; exact not_not.2 hne), if_neg (not_not.2 hne)]
        simp
      · rw [if_pos (hcond.2 hne), if_pos hne]
        simp
    · rw [if_neg (by omega)]
      have hdrop : s.drop first = [] := List.drop_eq_nil_of_le (by omega)
      rw [hdrop, runs_nil, List.append_nil]

/-- C27: for every string `s` and delimiter `d`, `split(s, d)` ends (within
`len + 1` passes of its loop, and with the same result under any larger bound)
and returns, in order, the maximal non-empty runs of characters of `s` other
than `d`: no segment is empty or contains `d`, and the segments concatenated
are `s` with every `d` removed. -/
theorem split_eq_runs (s : List Byte) (d : Byte) :
    split s d = some (runs s d)
      ∧ (∀ fuel, s.length < fuel → split_loop s d fuel 0 0 [] = some (runs s d))
      ∧ (∀ segment ∈ runs s d, segment ≠ [] ∧ d ∉ segment)
      ∧ (runs s d).flatten = s.filter (fun c => c ≠ d)
      ∧ split (str ",a,,bc,") (chr ',') = some [str "a", str "bc"] := by
  have hloop : ∀ fuel, s.length < fuel → split_loop s d fuel 0 0 [] = some (runs s d) := by
    intro fuel hfuel
    rw [split_loop_eq s d fuel 0 0 [] (by omega) (by omega) (by omega)]
    simp
  have hruns := runs_segments d s.length s (by omega)
  exact ⟨hloop (s.length + 1) (by omega), hloop, hruns.1, hruns.2, by decide⟩

end hmr.format
